import Mathlib

/-!
Verification of the versioned module-resolution and specifier-rewriting pipeline
of an ESM registry server.  The development shallowly embeds:

* `resolveSpecifier` — the import-map resolution of `ImportRewriter.resolveSpecifier`
  (quote stripping, truthy exact lookup, first-match subpath loop);
* the `ts-morph`-level rewriting passes of `ImportRewriter.rewriteImports` over an
  abstract syntax tree (`Expr` / `Stmt` / `SourceFile`), including the
  `@jsxImportSource` leading-comment pass;
* the POSIX `path.join` / `path.normalize` used when building redirect targets;
* the HTTP route logic of `createServer` (root-export resolution, canonical
  redirects, extension dispatch) and the manifest loader `getConfig`.

Strings are modelled at the character level (`String` viewed through `String.data`),
JavaScript truthiness of a string is modelled as non-emptiness, and JavaScript
objects are modelled as association lists in property-enumeration order.
-/

set_option maxRecDepth 10000

namespace EsmReg

/-- Characters treated as quotes by the regex stripping step
(single quote, double quote, backtick). -/
def isQuote (c : Char) : Bool :=
  c == Char.ofNat 39 || c == Char.ofNat 34 || c == Char.ofNat 96

/-- Removes one trailing quote character, if present. -/
def dropTrailQuote : List Char → List Char
  | [] => []
  | [c] => if isQuote c then [] else [c]
  | c :: c' :: rest => c :: dropTrailQuote (c' :: rest)

/-- Character-level model of `specifier.replace(/^['"`]|['"`]$/g, '')`:
one leading quote character is removed if present, then one trailing quote
character is removed if present. -/
def stripQuotesL : List Char → List Char
  | [] => []
  | c :: rest => if isQuote c then dropTrailQuote rest else dropTrailQuote (c :: rest)

/-- String wrapper of `stripQuotesL`. -/
def stripQuotes (s : String) : String :=
  String.mk (stripQuotesL s.data)

/-- Model of `value.replace(/\/$/, '')`: removes a single trailing slash. -/
def dropTrailSlash : List Char → List Char
  | [] => []
  | [c] => if c == '/' then [] else [c]
  | c :: c' :: rest => c :: dropTrailSlash (c' :: rest)

/-- String wrapper of `dropTrailSlash`. -/
def stripTrailingSlash (s : String) : String :=
  String.mk (dropTrailSlash s.data)

/-- Model of JavaScript `s.startsWith(pre)`. -/
def jsStartsWith (s pre : String) : Bool :=
  s.data.take pre.data.length == pre.data

/-- Model of JavaScript `s.length` (character count). -/
def strLen (s : String) : Nat :=
  s.data.length

/-- Model of JavaScript `s.slice(n)`. -/
def jsSliceFrom (s : String) (n : Nat) : String :=
  String.mk (s.data.drop n)

/-- Model of JavaScript property access `obj[k]` on an object represented as an
association list in property-enumeration order. -/
def lookupEntry (table : List (String × String)) (k : String) : Option String :=
  (table.find? (fun p => p.1 == k)).map (fun p => p.2)

/-- The `for (const [key, value] of Object.entries(this.imports))` subpath loop of
`resolveSpecifier`: the first entry whose `key + "/"` is a prefix of the cleaned
specifier yields `value` with a single trailing slash removed, concatenated with
the remainder of the specifier from `key.length` on. -/
def subpathResolve : List (String × String) → String → Option String
  | [], _ => none
  | (key, value) :: rest, clean =>
    if jsStartsWith clean (key ++ "/") then
      some (stripTrailingSlash value ++ jsSliceFrom clean (strLen key))
    else subpathResolve rest clean

/-- Embedding of `ImportRewriter.resolveSpecifier`: strip surrounding quote
characters, return a truthy exact match verbatim, otherwise the first subpath
match, otherwise the cleaned specifier unchanged. -/
def resolveSpecifier (imports : List (String × String)) (specifier : String) : String :=
  let cleanSpecifier := stripQuotes specifier
  let fallback :=
    match subpathResolve imports cleanSpecifier with
    | some r => r
    | none => cleanSpecifier
  match lookupEntry imports cleanSpecifier with
  | some v => if v = "" then fallback else v
  | none => fallback

/-- Syntactic operator token of a `BinaryExpression`; the rewriter only
distinguishes the `+` token from every other operator. -/
inductive Op where
  | plus
  | otherOp
deriving DecidableEq

mutual

/-- Abstract syntax tree of an expression, mirroring the `ts-morph` node kinds
the rewriter distinguishes: string literals, no-substitution template literals,
identifiers, the `import` keyword token (`SyntaxKind.ImportKeyword`, the callee
node of every genuine dynamic `import(...)` call — NOT an `Identifier`, since
`import` is a reserved word), binary expressions, call expressions, await
expressions, and a catch-all for every other node kind. -/
inductive Expr where
  | strLit (s : String)
  | tmplLit (s : String)
  | ident (name : String)
  | importKw
  | bin (op : Op) (l r : Expr)
  | call (callee : Expr) (args : ExprList)
  | awaitE (e : Expr)
  | otherE
deriving DecidableEq

/-- Argument list of a call expression. -/
inductive ExprList where
  | nil
  | cons (e : Expr) (es : ExprList)
deriving DecidableEq

end

/-- Statement of a source file: a static import declaration (its module
specifier node), a static export declaration (whose module specifier may be
absent), or any other statement with its expression children. -/
inductive Stmt where
  | importDecl (spec : Expr)
  | exportDecl (spec : Option Expr)
  | stmtOther (exprs : List Expr)
deriving DecidableEq

/-- A parsed source file: the leading comments the `@jsxImportSource` pass
inspects (those of the first statement, or of the file when it has no
statement), and the statement list. -/
structure SourceFile where
  leadingComments : List String
  stmts : List Stmt
deriving DecidableEq

/-- ASCII whitespace recognized for the `\s` class of the
`@jsxImportSource` regex. -/
def jsWhitespace (c : Char) : Bool :=
  c == ' ' || c == '\t' || c == '\n' || c == '\r' || c == Char.ofNat 11 || c == Char.ofNat 12

/-- Character class `[^\s*]` of the `@jsxImportSource` regex. -/
def jsxSpecChar (c : Char) : Bool :=
  !jsWhitespace c && !(c == '*')

/-- Character-list prefix test. -/
def listStartsWith (l p : List Char) : Bool :=
  l.take p.length == p

/-- The literal text of the `@jsxImportSource` marker. -/
def jsxKey : List Char :=
  "@jsxImportSource".data

/-- Attempts the regex `/@jsxImportSource\s+([^\s*]+)/` at one position:
the marker text, then at least one whitespace character, then the maximal
non-empty run of `[^\s*]` characters (the captured specifier). -/
def jsxMatchAt (l : List Char) : Option (List Char) :=
  if listStartsWith l jsxKey then
    let rest := l.drop jsxKey.length
    let ws := rest.takeWhile jsWhitespace
    if ws.isEmpty then none
    else
      let spec := (rest.drop ws.length).takeWhile jsxSpecChar
      if spec.isEmpty then none else some spec
  else none

/-- Scans a comment for the first position where the `@jsxImportSource` regex
matches, returning the captured specifier. -/
def findJsxSpec : List Char → Option (List Char)
  | [] => none
  | c :: rest =>
    match jsxMatchAt (c :: rest) with
    | some spec => some spec
    | none => findJsxSpec rest

/-- Splits a character list at the first occurrence of a pattern, returning the
part before and the part after the occurrence. -/
def splitAtSub : List Char → List Char → Option (List Char × List Char)
  | [], pat => if pat.isEmpty then some ([], []) else none
  | c :: rest, pat =>
    if listStartsWith (c :: rest) pat then some ([], (c :: rest).drop pat.length)
    else
      match splitAtSub rest pat with
      | some (b, a) => some (c :: b, a)
      | none => none

/-- Model of JavaScript `text.replace(pat, rep)` with a string pattern:
replaces the first occurrence of `pat`, or returns the text unchanged when
`pat` does not occur. -/
def replaceFirstL (hay pat rep : List Char) : List Char :=
  match splitAtSub hay pat with
  | some (b, a) => b ++ rep ++ a
  | none => hay

/-- Embedding of `processJsxImportSourceComment` restricted to one comment:
match the `@jsxImportSource` regex, resolve the captured specifier, and when
the resolution differs replace the first occurrence of the original specifier
text inside the comment. -/
def processJsxComment (imports : List (String × String)) (c : String) : String :=
  match findJsxSpec c.data with
  | none => c
  | some spec =>
    let originalSpecifier := String.mk spec
    let resolvedSpecifier := resolveSpecifier imports originalSpecifier
    if resolvedSpecifier = originalSpecifier then c
    else String.mk (replaceFirstL c.data spec resolvedSpecifier.data)

/-- One operand of a `+` concatenation inside `processBinaryExpressionArg`:
only a string-literal operand is rewritten. -/
def processBinOperand (imports : List (String × String)) : Expr → Expr
  | .strLit s => .strLit (resolveSpecifier imports s)
  | e => e

/-- Embedding of `processBinaryExpressionArg`: when the operator token is `+`,
rewrite the operands that are string literals, leaving all other operands
untouched; any other operator leaves the expression unchanged. -/
def processBinaryExpressionArg (imports : List (String × String)) (op : Op) (l r : Expr) : Expr :=
  if op = Op.plus then .bin op (processBinOperand imports l) (processBinOperand imports r)
  else .bin op l r

/-- Dispatch of `processDynamicImport` on the first argument: a string literal
or no-substitution template literal is resolved in place, a binary expression
goes through `processBinaryExpressionArg`, and every other argument kind is
skipped. -/
def processFirstArg (imports : List (String × String)) : Expr → Expr
  | .strLit s => .strLit (resolveSpecifier imports s)
  | .tmplLit s => .tmplLit (resolveSpecifier imports s)
  | .bin op l r => processBinaryExpressionArg imports op l r
  | e => e

/-- Embedding of `processDynamicImport` on one call node: the guard
`!Node.isIdentifier(expression) || expression.getText() !== "import"` admits
only a call whose callee is an `Identifier` node with text `import`; with at
least one argument the first argument is then processed. A genuine dynamic
import's callee is the `importKw` token, not an identifier, so it falls to the
catch-all and is returned untouched — the rewriting branch is dead code. -/
def processDynamicImport (imports : List (String × String)) : Expr → Expr
  | .call (.ident n) args =>
    if n = "import" then
      match args with
      | .nil => .call (.ident n) .nil
      | .cons a rest => .call (.ident n) (.cons (processFirstArg imports a) rest)
    else .call (.ident n) args
  | e => e

/-- Embedding of `processAwaitExpression` on one await node: when its operand
is a call expression, that call goes through `processDynamicImport`. -/
def processAwaitExpression (imports : List (String × String)) : Expr → Expr
  | .awaitE e => .awaitE (processDynamicImport imports e)
  | e => e

mutual

/-- The `getDescendantsOfKind(SyntaxKind.CallExpression)` pass: every call
node in the tree goes through `processDynamicImport`. -/
def rewriteCallsInExpr (imports : List (String × String)) : Expr → Expr
  | .strLit s => .strLit s
  | .tmplLit s => .tmplLit s
  | .ident n => .ident n
  | .importKw => .importKw
  | .bin op l r => .bin op (rewriteCallsInExpr imports l) (rewriteCallsInExpr imports r)
  | .call c args =>
    processDynamicImport imports
      (.call (rewriteCallsInExpr imports c) (rewriteCallsInList imports args))
  | .awaitE e => .awaitE (rewriteCallsInExpr imports e)
  | .otherE => .otherE

/-- List companion of `rewriteCallsInExpr`. -/
def rewriteCallsInList (imports : List (String × String)) : ExprList → ExprList
  | .nil => .nil
  | .cons e es => .cons (rewriteCallsInExpr imports e) (rewriteCallsInList imports es)

end

mutual

/-- The `getDescendantsOfKind(SyntaxKind.AwaitExpression)` pass: every await
node in the tree goes through `processAwaitExpression`. -/
def rewriteAwaitsInExpr (imports : List (String × String)) : Expr → Expr
  | .strLit s => .strLit s
  | .tmplLit s => .tmplLit s
  | .ident n => .ident n
  | .importKw => .importKw
  | .bin op l r => .bin op (rewriteAwaitsInExpr imports l) (rewriteAwaitsInExpr imports r)
  | .call c args => .call (rewriteAwaitsInExpr imports c) (rewriteAwaitsInList imports args)
  | .awaitE e => processAwaitExpression imports (.awaitE (rewriteAwaitsInExpr imports e))
  | .otherE => .otherE

/-- List companion of `rewriteAwaitsInExpr`. -/
def rewriteAwaitsInList (imports : List (String × String)) : ExprList → ExprList
  | .nil => .nil
  | .cons e es => .cons (rewriteAwaitsInExpr imports e) (rewriteAwaitsInList imports es)

end

/-- Embedding of `processImportDeclaration`: a string-literal module specifier
of a static import is resolved in place; otherwise the declaration is
untouched. -/
def processImportDeclaration (imports : List (String × String)) : Stmt → Stmt
  | .importDecl (.strLit s) => .importDecl (.strLit (resolveSpecifier imports s))
  | s => s

/-- Embedding of `processExportDeclaration`: a string-literal module specifier
of a static re-export is resolved in place; a missing or non-literal specifier
is untouched. -/
def processExportDeclaration (imports : List (String × String)) : Stmt → Stmt
  | .exportDecl (some (.strLit s)) => .exportDecl (some (.strLit (resolveSpecifier imports s)))
  | s => s

/-- Applies an expression transformation to every expression child of a
statement. -/
def mapStmtExprs (f : Expr → Expr) : Stmt → Stmt
  | .importDecl e => .importDecl (f e)
  | .exportDecl oe => .exportDecl (oe.map f)
  | .stmtOther es => .stmtOther (es.map f)

/-- Embedding of `ImportRewriter.rewriteImports` on a parsed source file, in
source order: the `@jsxImportSource` comment pass, then the import
declarations, the export declarations, all descendant call expressions, and
finally all descendant await expressions. -/
def rewriteImports (imports : List (String × String)) (sf : SourceFile) : SourceFile :=
  let comments := sf.leadingComments.map (processJsxComment imports)
  let s1 := sf.stmts.map (processImportDeclaration imports)
  let s2 := s1.map (processExportDeclaration imports)
  let s3 := s2.map (mapStmtExprs (rewriteCallsInExpr imports))
  let s4 := s3.map (mapStmtExprs (rewriteAwaitsInExpr imports))
  { leadingComments := comments, stmts := s4 }

/-- Splits a character list on `/` separators (JavaScript `s.split("/")`). -/
def splitSlashL : List Char → List (List Char)
  | [] => [[]]
  | c :: rest =>
    if c == '/' then [] :: splitSlashL rest
    else
      match splitSlashL rest with
      | h :: t => (c :: h) :: t
      | [] => [[c]]

/-- Effect of one `..` component on the reversed component stack: it pops the
last stacked component (unless that is itself a kept `..`, in which case the
`..` is stacked too), and at an empty stack it is kept only for relative paths
(`allowAboveRoot`). -/
def popDotDot (allowAboveRoot : Bool) : List (List Char) → List (List Char)
  | top :: accTail =>
    if top == ['.', '.'] then ['.', '.'] :: top :: accTail else accTail
  | [] => if allowAboveRoot then [['.', '.']] else []

/-- Stack-based resolution of `.` and `..` path components, mirroring the
`normalizeString` step of the POSIX path library: empty and `.` components are
dropped and `..` acts through `popDotDot`. -/
def normParts (allowAboveRoot : Bool) : List (List Char) → List (List Char) → List (List Char)
  | acc, [] => acc.reverse
  | acc, p :: rest =>
    if p.isEmpty || p == ['.'] then normParts allowAboveRoot acc rest
    else if p == ['.', '.'] then normParts allowAboveRoot (popDotDot allowAboveRoot acc) rest
    else normParts allowAboveRoot (p :: acc) rest

/-- Joins path components with `/` separators. -/
def joinSlash : List (List Char) → List Char
  | [] => []
  | [p] => p
  | p :: q :: rest => p ++ '/' :: joinSlash (q :: rest)

/-- Normalized component body of a path: split on separators, resolve `.` and
`..`, and rejoin. -/
def posixCore (isAbs : Bool) (l : List Char) : List Char :=
  joinSlash (normParts (!isAbs) [] (splitSlashL l))

/-- Final assembly of POSIX `path.normalize`: an emptied relative path becomes
`.`, a trailing separator of the input is restored, and an absolute path gets
its leading slash back. -/
def posixFinish (isAbs trail : Bool) (core : List Char) : List Char :=
  let core1 := if core.isEmpty && !isAbs then ['.'] else core
  let core2 := if !core1.isEmpty && trail then core1 ++ ['/'] else core1
  if isAbs then '/' :: core2 else core2

/-- Embedding of POSIX `path.normalize`: resolve `.` and `..` components,
collapse repeated separators, restore a leading slash for absolute paths and a
trailing slash when the input had one, and return `.` for an emptied relative
path. -/
def posixNormalizeL (l : List Char) : List Char :=
  match l with
  | [] => ['.']
  | c :: _ =>
    posixFinish (c == '/') (l.getLast? == some '/') (posixCore (c == '/') l)

/-- String wrapper of `posixNormalizeL`. -/
def posixNormalize (s : String) : String :=
  String.mk (posixNormalizeL s.data)

/-- The fold building `joined` inside POSIX `path.join`: non-empty segments
are concatenated with `/` separators; no segment at all yields `none`. -/
def joinParts (paths : List String) : Option String :=
  paths.foldl
    (fun acc p =>
      if p = "" then acc
      else
        match acc with
        | none => some p
        | some j => some (j ++ "/" ++ p))
    none

/-- Embedding of POSIX `path.join`: concatenate the non-empty segments and
normalize, or return `.` when nothing was joined. -/
def posixJoin (paths : List String) : String :=
  match joinParts paths with
  | none => "."
  | some j => posixNormalize j

/-- Exports field of a manifest: either a bare string or a mapping, as the
`string | Record<string, string>` union of `DenoConfig`. -/
inductive ExportsField where
  | str (s : String)
  | map (entries : List (String × String))
deriving DecidableEq

/-- Manifest shape consumed by the server (`deno.json` contents): optional
`exports` and optional `imports`. -/
structure DenoConfig where
  exports : Option ExportsField := none
  imports : Option (List (String × String)) := none
deriving DecidableEq

/-- Outcome of a route handler: a redirect, a text body, a raw byte body with a
content-type header, or an error response carrying an HTTP status and a
message. -/
inductive Response where
  | redirect (location : String)
  | text (body : String)
  | bytes (body : List Nat) (contentTypeHeader : String)
  | httpError (status : Nat) (message : String)
deriving DecidableEq

/-- JavaScript truthiness of the `exports` manifest field: absent and the
empty string are falsy; every object is truthy. -/
def exportsTruthy : Option ExportsField → Bool
  | none => false
  | some (.str s) => !(s == "")
  | some (.map _) => true

/-- The fixed ordered entrypoint fallback list of the root route. -/
def entrypoints : List String :=
  ["mod.js", "mod.ts", "mod.jsx", "mod.tsx", "main.js", "main.ts", "main.jsx", "main.tsx"]

/-- First seven characters of a revision identifier (`oid.slice(0, 7)`). -/
def oidShort (oid : String) : String :=
  String.mk (oid.data.take 7)

/-- Entrypoint fallback of the `GET /:app` handler: scan the fixed entrypoint
list for the first name present at the top level of the revision's tree and
redirect to it; with no entrypoint present, throw an `HTTPException` with
status 404 naming the app and ref. -/
def rootFallback (app ref oid : String) (tree : List String) : Response :=
  match entrypoints.find? (fun mainFile => tree.contains mainFile) with
  | some mainFile => .redirect (posixJoin ["/", app ++ "@" ++ oidShort oid, mainFile])
  | none => .httpError 404 ("No default export found for " ++ app ++ " at " ++ ref)

/-- Embedding of the `GET /:app` handler after reference resolution and
manifest loading: a truthy string `exports` redirects to it; an `exports`
mapping with key `"."` redirects to that value; otherwise the handler falls
through to the entrypoint scan of `rootFallback`. -/
def rootRoute (config : DenoConfig) (app ref oid : String) (tree : List String) : Response :=
  if exportsTruthy config.exports then
    match config.exports with
    | some (.str s) => .redirect (posixJoin ["/", app ++ "@" ++ oidShort oid, s])
    | some (.map m) =>
      match lookupEntry m "." with
      | some v => .redirect (posixJoin ["/", app ++ "@" ++ oidShort oid, v])
      | none => rootFallback app ref oid tree
    | none => rootFallback app ref oid tree
  else rootFallback app ref oid tree

/-- Embedding of the canonicalization step of the file route: when the
resolved revision id does not start with the literal ref text, the handler
returns a redirect to the short-revision form and stops; otherwise it falls
through. -/
def fileRouteCanonical (app ref oid filepath : String) : Option Response :=
  if !(jsStartsWith oid ref) then
    some (.redirect ("/" ++ app ++ "@" ++ oidShort oid ++ "/" ++ filepath))
  else none

/-- Model of the registered `app.onError` handler: every error thrown by a
handler — including an `HTTPException` carrying its own status — is answered
with a JSON error body whose status field and HTTP status are hard-coded to
500, keeping only the message. -/
def withOnError : Response → Response
  | .httpError _ message => .httpError 500 message
  | r => r

/-- The empty manifest returned when every candidate fails. -/
def emptyConfig : DenoConfig :=
  {}

/-- Candidate loop of `getConfig`: for each manifest filename in order, a
successful fetch-and-parse wins (the `try`/`catch`-`continue` of the source);
when every candidate fails the empty manifest is returned. -/
def getConfigLoop (fetchAt : String → Option String)
    (parseJsonc : String → Option DenoConfig) : List String → DenoConfig
  | [] => emptyConfig
  | filepath :: rest =>
    ((fetchAt filepath).bind parseJsonc).getD (getConfigLoop fetchAt parseJsonc rest)

/-- Embedding of `getConfig`: try `deno.json` then `deno.jsonc`, where
`fetchAt` models `getFileContentAtCommit` (failing when the file is absent at
the revision) and `parseJsonc` models the comment-tolerant JSON parse (failing
on malformed text). -/
def getConfig (fetchAt : String → Option String)
    (parseJsonc : String → Option DenoConfig) : DenoConfig :=
  getConfigLoop fetchAt parseJsonc ["deno.json", "deno.jsonc"]

/-- Checks that a path string has no `..` component. -/
def noDotDot (s : String) : Bool :=
  (splitSlashL s.data).all (fun q => !(q == ['.', '.']))

/-- Checks that the root-export target of a manifest (a string `exports` or
the `"."` entry of an `exports` mapping) has no `..` component. -/
def exportsDotDotFree (config : DenoConfig) : Bool :=
  match config.exports with
  | none => true
  | some (.str s) => noDotDot s
  | some (.map m) =>
    match lookupEntry m "." with
    | some v => noDotDot v
    | none => true

/-- Checks that one import-table value is quote-clean and that its
slash-terminated stripped form is prefix-incomparable with every
slash-terminated key of the table. -/
def tableValueGoodB (table : List (String × String)) (v : String) : Bool :=
  (stripQuotes v == v) &&
  table.all (fun q =>
    !(listStartsWith (q.1.data ++ ['/']) (dropTrailSlash v.data ++ ['/'])) &&
    !(listStartsWith (dropTrailSlash v.data ++ ['/']) (q.1.data ++ ['/'])))

/-- Checks that every value of an import table is `tableValueGoodB`; under this
condition every output of `resolveSpecifier` is itself a fixed point of
`resolveSpecifier`. -/
def tableGoodB (table : List (String × String)) : Bool :=
  table.all (fun p => tableValueGoodB table p.2)

mutual

/-- Checks that every string and template literal in an expression is
quote-clean (unchanged by quote stripping). -/
def litsCleanE : Expr → Bool
  | .strLit s => stripQuotes s == s
  | .tmplLit s => stripQuotes s == s
  | .ident _ => true
  | .importKw => true
  | .bin _ l r => litsCleanE l && litsCleanE r
  | .call c args => litsCleanE c && litsCleanL args
  | .awaitE e => litsCleanE e
  | .otherE => true

/-- List companion of `litsCleanE`. -/
def litsCleanL : ExprList → Bool
  | .nil => true
  | .cons e es => litsCleanE e && litsCleanL es

end

/-- Statement-level companion of `litsCleanE`. -/
def litsCleanS : Stmt → Bool
  | .importDecl e => litsCleanE e
  | .exportDecl (some e) => litsCleanE e
  | .exportDecl none => true
  | .stmtOther es => es.all litsCleanE

/-- File-level companion of `litsCleanE`. -/
def litsCleanF (sf : SourceFile) : Bool :=
  sf.stmts.all litsCleanS

/-- Checks that the specifier captured by the `@jsxImportSource` regex in a
comment, if any, already resolves to itself. -/
def jsxSpecFixedB (imports : List (String × String)) (c : String) : Bool :=
  match findJsxSpec c.data with
  | none => true
  | some spec => resolveSpecifier imports (String.mk spec) == String.mk spec

/-- File-level companion of `jsxSpecFixedB` over the leading comments. -/
def jsxFixedF (imports : List (String × String)) (sf : SourceFile) : Bool :=
  sf.leadingComments.all (jsxSpecFixedB imports)

/-- Checks that one operand of a `+` concatenation needs no further rewriting:
a string-literal operand must resolve to itself. -/
def operandFixedB (imports : List (String × String)) : Expr → Bool
  | .strLit s => resolveSpecifier imports s == s
  | _ => true

/-- Checks that the first argument of an import call needs no further
rewriting: a literal argument must resolve to itself, and the string-literal
operands of a `+` concatenation must resolve to themselves. -/
def firstArgFixedB (imports : List (String × String)) : Expr → Bool
  | .strLit s => resolveSpecifier imports s == s
  | .tmplLit s => resolveSpecifier imports s == s
  | .bin op l r =>
    if op = Op.plus then operandFixedB imports l && operandFixedB imports r
    else true
  | _ => true

/-- Guard of a call node: when the callee is the identifier `import` and the
call has a first argument, that argument must be `firstArgFixedB`. -/
def importGuardB (imports : List (String × String)) (c : Expr) (args : ExprList) : Bool :=
  match c with
  | .ident n =>
    match args with
    | .cons a _ => if n = "import" then firstArgFixedB imports a else true
    | .nil => true
  | _ => true

mutual

/-- Checks that every dynamic-import position in an expression holds an
argument that is fixed under processing. -/
def argsFixedE (imports : List (String × String)) : Expr → Bool
  | .strLit _ => true
  | .tmplLit _ => true
  | .ident _ => true
  | .importKw => true
  | .bin _ l r => argsFixedE imports l && argsFixedE imports r
  | .call c args =>
    argsFixedE imports c && argsFixedL imports args && importGuardB imports c args
  | .awaitE e => argsFixedE imports e
  | .otherE => true

/-- List companion of `argsFixedE`. -/
def argsFixedL (imports : List (String × String)) : ExprList → Bool
  | .nil => true
  | .cons e es => argsFixedE imports e && argsFixedL imports es

end

/-- Composition of the call-expression pass and the await-expression pass, in
the order `rewriteImports` applies them. -/
def processCallsAwaits (imports : List (String × String)) (e : Expr) : Expr :=
  rewriteAwaitsInExpr imports (rewriteCallsInExpr imports e)

/-- List companion of `processCallsAwaits`. -/
def processCallsAwaitsL (imports : List (String × String)) (es : ExprList) : ExprList :=
  rewriteAwaitsInList imports (rewriteCallsInList imports es)

/-- The full statement pipeline of `rewriteImports`: the import-declaration
pass, the export-declaration pass, the call pass, and the await pass. -/
def processStmtAll (imports : List (String × String)) (st : Stmt) : Stmt :=
  mapStmtExprs (rewriteAwaitsInExpr imports)
    (mapStmtExprs (rewriteCallsInExpr imports)
      (processExportDeclaration imports (processImportDeclaration imports st)))

theorem data_append (a b : String) : (a ++ b).data = a.data ++ b.data :=
  match a, b with
  | ⟨_⟩, ⟨_⟩ => rfl

theorem mk_data (s : String) : String.mk s.data = s :=
  match s with
  | ⟨_⟩ => rfl

theorem mk_inj {l l' : List Char} (h : String.mk l = String.mk l') : l = l' := by
  injection h

theorem listStartsWith_iff {l p : List Char} :
    listStartsWith l p = true ↔ l.take p.length = p := by
  simp [listStartsWith]

theorem listStartsWith_refl_append (p t : List Char) : listStartsWith (p ++ t) p = true := by
  rw [listStartsWith_iff]
  exact List.take_left p t

theorem length_le_of_listStartsWith {l p : List Char} (h : listStartsWith l p = true) :
    p.length ≤ l.length := by
  rw [listStartsWith_iff] at h
  have := congrArg List.length h
  simp [List.length_take] at this
  exact this

theorem listStartsWith_extend {l p : List Char} (x : List Char)
    (h : listStartsWith l p = true) : listStartsWith (l ++ x) p = true := by
  have hle := length_le_of_listStartsWith h
  rw [listStartsWith_iff] at h ⊢
  rw [List.take_append_of_le_length hle, h]

theorem listStartsWith_trans_le {l p q : List Char}
    (hp : listStartsWith l p = true) (hq : listStartsWith l q = true)
    (hle : p.length ≤ q.length) : listStartsWith q p = true := by
  rw [listStartsWith_iff] at hp hq ⊢
  calc q.take p.length = (l.take q.length).take p.length := by rw [hq]
    _ = l.take p.length := by rw [List.take_take, Nat.min_eq_left hle]
    _ = p := hp

theorem eq_append_of_listStartsWith {l p : List Char} (h : listStartsWith l p = true) :
    l = p ++ l.drop p.length := by
  rw [listStartsWith_iff] at h
  conv_lhs => rw [← List.take_append_drop p.length l, h]

theorem jsStartsWith_eq (s pre : String) :
    jsStartsWith s pre = listStartsWith s.data pre.data := rfl

theorem slashData (x : String) : (x ++ "/").data = x.data ++ ['/'] := by
  rw [data_append]

theorem dropTrailQuote_of_getLast (l : List Char)
    (h : ∀ c, l.getLast? = some c → isQuote c = false) : dropTrailQuote l = l := by
  match l with
  | [] => rfl
  | [c] =>
    have hc := h c rfl
    simp [dropTrailQuote, hc]
  | c :: c' :: rest =>
    have htail : ∀ d, (c' :: rest).getLast? = some d → isQuote d = false := by
      intro d hd
      exact h d (by rw [List.getLast?_cons_cons]; exact hd)
    simp [dropTrailQuote, dropTrailQuote_of_getLast (c' :: rest) htail]

theorem stripQuotesL_eq_self (l : List Char)
    (h1 : ∀ c, l.head? = some c → isQuote c = false)
    (h2 : ∀ c, l.getLast? = some c → isQuote c = false) :
    stripQuotesL l = l := by
  match l with
  | [] => rfl
  | c :: rest =>
    have hc := h1 c rfl
    simp [stripQuotesL, hc, dropTrailQuote_of_getLast (c :: rest) h2]

theorem length_dropTrailQuote_le (l : List Char) : (dropTrailQuote l).length ≤ l.length := by
  match l with
  | [] => exact Nat.le_refl _
  | [c] =>
    by_cases h : isQuote c = true
    · simp [dropTrailQuote, h]
    · simp [dropTrailQuote, h]
  | c :: c' :: rest =>
    have := length_dropTrailQuote_le (c' :: rest)
    simp only [dropTrailQuote, List.length_cons] at this ⊢
    omega

theorem head_not_quote_of_stripQuotesL (l : List Char) (h : stripQuotesL l = l) :
    ∀ c, l.head? = some c → isQuote c = false := by
  match l with
  | [] => intro c hc; cases hc
  | c :: rest =>
    intro d hd
    have hd' : c = d := by simpa using hd
    subst hd'
    by_cases hq : isQuote c = true
    · exfalso
      rw [stripQuotesL, if_pos hq] at h
      have hlen := congrArg List.length h
      have := length_dropTrailQuote_le rest
      simp only [List.length_cons] at hlen
      omega
    · simpa using hq

theorem dropTrailQuote_getLast_not_quote (l : List Char) (h : dropTrailQuote l = l) :
    ∀ c, l.getLast? = some c → isQuote c = false := by
  match l with
  | [] => intro c hc; cases hc
  | [c] =>
    intro d hd
    have hd' : c = d := by simpa using hd
    subst hd'
    by_cases hq : isQuote c = true
    · exfalso
      rw [dropTrailQuote, if_pos hq] at h
      cases h
    · simpa using hq
  | c :: c' :: rest =>
    intro d hd
    rw [List.getLast?_cons_cons] at hd
    have htail : dropTrailQuote (c' :: rest) = c' :: rest := by
      rw [dropTrailQuote] at h
      exact (List.cons_eq_cons.mp h).2
    exact dropTrailQuote_getLast_not_quote (c' :: rest) htail d hd

theorem getLast_not_quote_of_stripQuotesL (l : List Char) (h : stripQuotesL l = l) :
    ∀ c, l.getLast? = some c → isQuote c = false := by
  match l with
  | [] => intro c hc; cases hc
  | c :: rest =>
    have hc : isQuote c = false := head_not_quote_of_stripQuotesL (c :: rest) h c rfl
    rw [stripQuotesL, if_neg (by simp [hc])] at h
    exact dropTrailQuote_getLast_not_quote (c :: rest) h

theorem stripQuotes_eq_self_of (s : String)
    (h1 : ∀ c, s.data.head? = some c → isQuote c = false)
    (h2 : ∀ c, s.data.getLast? = some c → isQuote c = false) :
    stripQuotes s = s := by
  rw [stripQuotes, stripQuotesL_eq_self s.data h1 h2, mk_data]

theorem stripQuotesL_of_stripQuotes {s : String} (h : stripQuotes s = s) :
    stripQuotesL s.data = s.data :=
  congrArg String.data h

theorem head_not_quote_of_stripQuotes {s : String} (h : stripQuotes s = s) :
    ∀ c, s.data.head? = some c → isQuote c = false :=
  head_not_quote_of_stripQuotesL s.data (stripQuotesL_of_stripQuotes h)

theorem getLast_not_quote_of_stripQuotes {s : String} (h : stripQuotes s = s) :
    ∀ c, s.data.getLast? = some c → isQuote c = false :=
  getLast_not_quote_of_stripQuotesL s.data (stripQuotesL_of_stripQuotes h)

theorem lookupEntry_eq_none {T : List (String × String)} {k : String}
    (h : ∀ p ∈ T, p.1 ≠ k) : lookupEntry T k = none := by
  rw [lookupEntry, List.find?_eq_none.mpr]
  · rfl
  · intro p hp
    simpa using h p hp

theorem lookupEntry_mem {T : List (String × String)} {k v : String}
    (h : lookupEntry T k = some v) : (k, v) ∈ T := by
  rw [lookupEntry] at h
  match hf : T.find? (fun p => p.1 == k) with
  | none => rw [hf] at h; cases h
  | some p =>
    rw [hf] at h
    have hmem := List.mem_of_find?_eq_some hf
    have hkey : p.1 = k := by simpa using List.find?_some hf
    have hval : p.2 = v := by simpa using h
    have : p = (k, v) := by
      cases p
      simp_all
    rw [← this]
    exact hmem

theorem subpathResolve_eq_none {T : List (String × String)} {c : String}
    (h : ∀ p ∈ T, jsStartsWith c (p.1 ++ "/") = false) : subpathResolve T c = none := by
  match T with
  | [] => rfl
  | (key, value) :: rest =>
    rw [subpathResolve, if_neg]
    · exact subpathResolve_eq_none (fun p hp => h p (List.mem_cons_of_mem _ hp))
    · simp [h (key, value) (List.mem_cons_self _ _)]

theorem subpathResolve_first {T1 T2 : List (String × String)} {k v : String} {c : String}
    (h1 : ∀ p ∈ T1, jsStartsWith c (p.1 ++ "/") = false)
    (hk : jsStartsWith c (k ++ "/") = true) :
    subpathResolve (T1 ++ (k, v) :: T2) c
      = some (stripTrailingSlash v ++ jsSliceFrom c (strLen k)) := by
  match T1 with
  | [] =>
    rw [List.nil_append, subpathResolve, if_pos hk]
  | (key, value) :: rest =>
    rw [List.cons_append, subpathResolve, if_neg]
    · exact subpathResolve_first (fun p hp => h1 p (List.mem_cons_of_mem _ hp)) hk
    · simp [h1 (key, value) (List.mem_cons_self _ _)]

theorem subpathResolve_some {T : List (String × String)} {c r : String}
    (h : subpathResolve T c = some r) :
    ∃ k v, (k, v) ∈ T ∧ jsStartsWith c (k ++ "/") = true ∧
      r = stripTrailingSlash v ++ jsSliceFrom c (strLen k) := by
  match T with
  | [] => cases h
  | (key, value) :: rest =>
    rw [subpathResolve] at h
    by_cases hs : jsStartsWith c (key ++ "/") = true
    · rw [if_pos hs] at h
      exact ⟨key, value, (List.mem_cons_self _ _), hs, (Option.some_inj.mp h).symm⟩
    · rw [if_neg hs] at h
      obtain ⟨k, v, hmem, hpre, hr⟩ := subpathResolve_some h
      exact ⟨k, v, List.mem_cons_of_mem _ hmem, hpre, hr⟩

theorem resolveSpecifier_exact {T : List (String × String)} {s v : String}
    (hclean : stripQuotes s = s) (h : lookupEntry T s = some v) (hv : v ≠ "") :
    resolveSpecifier T s = v := by
  rw [resolveSpecifier]
  simp only [hclean, h, if_neg hv]

theorem resolveSpecifier_subpathFirst {T1 T2 : List (String × String)} {k v s : String}
    (hclean : stripQuotes s = s)
    (hnoexact : ∀ p ∈ T1 ++ (k, v) :: T2, p.1 = s → p.2 = "")
    (h1 : ∀ p ∈ T1, jsStartsWith s (p.1 ++ "/") = false)
    (hk : jsStartsWith s (k ++ "/") = true) :
    resolveSpecifier (T1 ++ (k, v) :: T2) s
      = stripTrailingSlash v ++ jsSliceFrom s (strLen k) := by
  rw [resolveSpecifier]
  simp only [hclean]
  rw [subpathResolve_first h1 hk]
  match hl : lookupEntry (T1 ++ (k, v) :: T2) s with
  | none => rfl
  | some v' =>
    have hv' : v' = "" := hnoexact (s, v') (lookupEntry_mem hl) rfl
    simp [hv']

theorem resolveSpecifier_noMatch {T : List (String × String)} {s : String}
    (hexact : ∀ p ∈ T, p.1 = stripQuotes s → p.2 = "")
    (hsub : ∀ p ∈ T, jsStartsWith (stripQuotes s) (p.1 ++ "/") = false) :
    resolveSpecifier T s = stripQuotes s := by
  rw [resolveSpecifier]
  simp only [subpathResolve_eq_none hsub]
  match hl : lookupEntry T (stripQuotes s) with
  | none => rfl
  | some v' =>
    have hv' : v' = "" := hexact (stripQuotes s, v') (lookupEntry_mem hl) rfl
    simp [hv']

theorem listStartsWith_self (l : List Char) : listStartsWith l l = true := by
  rw [listStartsWith_iff]
  exact List.take_length l

theorem dropTrailSlash_decomp (l : List Char) :
    ∃ t, l = dropTrailSlash l ++ t ∧ (t = [] ∨ t = ['/']) := by
  match l with
  | [] => exact ⟨[], rfl, Or.inl rfl⟩
  | [c] =>
    by_cases h : (c == '/') = true
    · refine ⟨['/'], ?_, Or.inr rfl⟩
      have : c = '/' := by simpa using h
      simp [dropTrailSlash, h, this]
    · exact ⟨[], by simp [dropTrailSlash, h], Or.inl rfl⟩
  | c :: c' :: rest =>
    obtain ⟨t, ht, hcase⟩ := dropTrailSlash_decomp (c' :: rest)
    refine ⟨t, ?_, hcase⟩
    rw [dropTrailSlash, List.cons_append, ← ht]

theorem tableGoodB_spec {T : List (String × String)} (hT : tableGoodB T = true)
    {p : String × String} (hp : p ∈ T) :
    stripQuotes p.2 = p.2 ∧ ∀ q ∈ T,
      listStartsWith (q.1.data ++ ['/']) (dropTrailSlash p.2.data ++ ['/']) = false ∧
      listStartsWith (dropTrailSlash p.2.data ++ ['/']) (q.1.data ++ ['/']) = false := by
  rw [tableGoodB, List.all_eq_true] at hT
  have := hT p hp
  rw [tableValueGoodB, Bool.and_eq_true, List.all_eq_true] at this
  obtain ⟨hclean, hall⟩ := this
  refine ⟨by simpa using hclean, fun q hq => ?_⟩
  have := hall q hq
  rw [Bool.and_eq_true] at this
  exact ⟨by simpa using this.1, by simpa using this.2⟩

theorem value_resolve_fixed {T : List (String × String)} {v : String}
    (hvClean : stripQuotes v = v)
    (hinc : ∀ q ∈ T,
      listStartsWith (q.1.data ++ ['/']) (dropTrailSlash v.data ++ ['/']) = false ∧
      listStartsWith (dropTrailSlash v.data ++ ['/']) (q.1.data ++ ['/']) = false) :
    resolveSpecifier T v = v := by
  obtain ⟨t, ht, hcase⟩ := dropTrailSlash_decomp v.data
  set sv := dropTrailSlash v.data with hsv
  have hres := @resolveSpecifier_noMatch T v ?_ ?_
  · rw [hres, hvClean]
  · intro p hp hkey
    exfalso
    rw [hvClean] at hkey
    have h1 := (hinc p hp).1
    rw [hkey] at h1
    rcases hcase with hc | hc
    · subst hc
      rw [List.append_nil] at ht
      rw [ht, listStartsWith_self] at h1
      cases h1
    · subst hc
      rw [ht, listStartsWith_refl_append] at h1
      cases h1
  · intro p hp
    rw [hvClean]
    by_contra hcon
    have hpre : listStartsWith v.data (p.1.data ++ ['/']) = true := by
      have := Bool.of_not_eq_false hcon
      rw [jsStartsWith_eq, slashData] at this
      exact this
    have h2 := (hinc p hp).2
    rcases hcase with hc | hc
    · subst hc
      rw [List.append_nil] at ht
      rw [ht] at hpre
      rw [listStartsWith_extend ['/'] hpre] at h2
      cases h2
    · subst hc
      rw [ht] at hpre
      rw [hpre] at h2
      cases h2

theorem slash_not_quote : isQuote '/' = false := by decide

theorem subpath_output_good {T : List (String × String)} (hT : tableGoodB T = true)
    {k v c : String} (hmem : (k, v) ∈ T) (hclean : stripQuotes c = c)
    (hk : jsStartsWith c (k ++ "/") = true) :
    stripQuotes (stripTrailingSlash v ++ jsSliceFrom c (strLen k))
        = stripTrailingSlash v ++ jsSliceFrom c (strLen k) ∧
    resolveSpecifier T (stripTrailingSlash v ++ jsSliceFrom c (strLen k))
        = stripTrailingSlash v ++ jsSliceFrom c (strLen k) := by
  have hgood := tableGoodB_spec hT hmem
  have hvClean : stripQuotes v = v := hgood.1
  have hpre : listStartsWith c.data (k.data ++ ['/']) = true := by
    rw [jsStartsWith_eq, slashData] at hk
    exact hk
  obtain ⟨tv, htv, hcasev⟩ := dropTrailSlash_decomp v.data
  obtain ⟨rest, hc2⟩ : ∃ rest, c.data = k.data ++ '/' :: rest := by
    refine ⟨c.data.drop (k.data ++ ['/']).length, ?_⟩
    conv_lhs => rw [eq_append_of_listStartsWith hpre]
    simp [List.append_assoc]
  have hu : (stripTrailingSlash v ++ jsSliceFrom c (strLen k)).data
      = dropTrailSlash v.data ++ '/' :: rest := by
    rw [data_append,
      show (stripTrailingSlash v).data = dropTrailSlash v.data from rfl,
      show (jsSliceFrom c (strLen k)).data = List.drop k.data.length c.data from rfl,
      hc2, List.drop_left]
  have hcleanU : stripQuotes (stripTrailingSlash v ++ jsSliceFrom c (strLen k))
      = stripTrailingSlash v ++ jsSliceFrom c (strLen k) := by
    apply stripQuotes_eq_self_of
    · intro ch hch
      rw [hu] at hch
      match hsv2 : dropTrailSlash v.data with
      | [] =>
        rw [hsv2] at hch
        have hcv : '/' = ch := by simpa using hch
        rw [← hcv]
        exact slash_not_quote
      | x :: xs =>
        rw [hsv2] at hch
        have hx : x = ch := by simpa using hch
        subst hx
        apply head_not_quote_of_stripQuotes hvClean
        rw [htv, hsv2]
        rfl
    · intro ch hch
      rw [hu, List.getLast?_append_cons] at hch
      match hr2 : rest with
      | [] =>
        have hcv : '/' = ch := by simpa using hch
        rw [← hcv]
        exact slash_not_quote
      | y :: ys =>
        rw [List.getLast?_cons_cons] at hch
        apply getLast_not_quote_of_stripQuotes hclean
        rw [hc2, List.getLast?_append_cons, List.getLast?_cons_cons]
        exact hch
  refine ⟨hcleanU, ?_⟩
  have hfix := @resolveSpecifier_noMatch T
    (stripTrailingSlash v ++ jsSliceFrom c (strLen k)) ?_ ?_
  · rw [hfix, hcleanU]
  · intro p hp hkey
    exfalso
    rw [hcleanU] at hkey
    have h1 := (hgood.2 p hp).1
    have hkeyd : p.1.data ++ ['/']
        = (dropTrailSlash v.data ++ ['/']) ++ (rest ++ ['/']) := by
      rw [congrArg String.data hkey, hu]
      simp [List.append_assoc]
    rw [hkeyd, listStartsWith_refl_append] at h1
    cases h1
  · intro p hp
    rw [hcleanU]
    by_contra hcon
    have hpre2 : listStartsWith (dropTrailSlash v.data ++ '/' :: rest)
        (p.1.data ++ ['/']) = true := by
      have := Bool.of_not_eq_false hcon
      rw [jsStartsWith_eq, slashData, hu] at this
      exact this
    have hpre3 : listStartsWith (dropTrailSlash v.data ++ '/' :: rest)
        (dropTrailSlash v.data ++ ['/']) = true := by
      have hsplit : dropTrailSlash v.data ++ '/' :: rest
          = (dropTrailSlash v.data ++ ['/']) ++ rest := by
        simp [List.append_assoc]
      rw [hsplit]
      exact listStartsWith_refl_append _ _
    rcases Nat.le_total (p.1.data ++ ['/']).length
        (dropTrailSlash v.data ++ ['/']).length with hle | hle
    · have hcontra := listStartsWith_trans_le hpre2 hpre3 hle
      have h2 := (hgood.2 p hp).2
      rw [hcontra] at h2
      cases h2
    · have hcontra := listStartsWith_trans_le hpre3 hpre2 hle
      have h1 := (hgood.2 p hp).1
      rw [hcontra] at h1
      cases h1

theorem resolveSpecifier_cases (T : List (String × String)) (s : String) :
    (∃ v, lookupEntry T (stripQuotes s) = some v ∧ v ≠ "" ∧ resolveSpecifier T s = v) ∨
    (∃ r, subpathResolve T (stripQuotes s) = some r ∧ resolveSpecifier T s = r) ∨
    (subpathResolve T (stripQuotes s) = none ∧ resolveSpecifier T s = stripQuotes s) := by
  rw [resolveSpecifier]
  match hl : lookupEntry T (stripQuotes s) with
  | some v =>
    by_cases hv : v = ""
    · subst hv
      simp only [if_pos rfl]
      match hsub : subpathResolve T (stripQuotes s) with
      | some r => exact Or.inr (Or.inl ⟨r, rfl, rfl⟩)
      | none => exact Or.inr (Or.inr ⟨rfl, rfl⟩)
    · exact Or.inl ⟨v, rfl, hv, by simp [hv]⟩
  | none =>
    match hsub : subpathResolve T (stripQuotes s) with
    | some r => exact Or.inr (Or.inl ⟨r, rfl, rfl⟩)
    | none => exact Or.inr (Or.inr ⟨rfl, rfl⟩)

theorem resolve_fixed {T : List (String × String)} (hT : tableGoodB T = true)
    {s : String} (hs : stripQuotes s = s) :
    stripQuotes (resolveSpecifier T s) = resolveSpecifier T s ∧
    resolveSpecifier T (resolveSpecifier T s) = resolveSpecifier T s := by
  rcases resolveSpecifier_cases T s with ⟨v, hl, hv, hres⟩ | ⟨r, hsub, hres⟩ | ⟨hnone, hres⟩
  · rw [hs] at hl
    have hmem := lookupEntry_mem hl
    have hgood := tableGoodB_spec hT hmem
    rw [hres]
    exact ⟨hgood.1, value_resolve_fixed hgood.1 hgood.2⟩
  · rw [hs] at hsub
    obtain ⟨k, v, hmem, hk, hr⟩ := subpathResolve_some hsub
    rw [hres, hr]
    exact subpath_output_good hT hmem hs hk
  · have hres' : resolveSpecifier T s = s := hres.trans hs
    rw [hres']
    exact ⟨hs, hres'⟩

theorem resolve_idem {T : List (String × String)} (hT : tableGoodB T = true)
    {s : String} (hs : stripQuotes s = s) :
    resolveSpecifier T (resolveSpecifier T s) = resolveSpecifier T s :=
  (resolve_fixed hT hs).2

theorem processBinOperand_of_fixed {imports : List (String × String)} {e : Expr}
    (h : operandFixedB imports e = true) :
    processBinOperand imports e = e := by
  match e with
  | .strLit s =>
    have hs : resolveSpecifier imports s = s := by simpa [operandFixedB] using h
    simp only [processBinOperand, hs]
  | .tmplLit s => rfl
  | .ident n => rfl
  | .importKw => rfl
  | .bin op l r => rfl
  | .call c args => rfl
  | .awaitE e1 => rfl
  | .otherE => rfl

theorem processFirstArg_of_fixed {imports : List (String × String)} {a : Expr}
    (h : firstArgFixedB imports a = true) : processFirstArg imports a = a := by
  match a with
  | .strLit s =>
    have hs : resolveSpecifier imports s = s := by simpa [firstArgFixedB] using h
    simp only [processFirstArg, hs]
  | .tmplLit s =>
    have hs : resolveSpecifier imports s = s := by simpa [firstArgFixedB] using h
    simp only [processFirstArg, hs]
  | .bin op l r =>
    simp only [processFirstArg, processBinaryExpressionArg]
    by_cases hop : op = Op.plus
    · rw [if_pos hop]
      rw [firstArgFixedB, if_pos hop, Bool.and_eq_true] at h
      rw [processBinOperand_of_fixed h.1, processBinOperand_of_fixed h.2]
    · rw [if_neg hop]
  | .ident n => rfl
  | .importKw => rfl
  | .call c args => rfl
  | .awaitE e1 => rfl
  | .otherE => rfl

theorem processDynamicImport_of_fixed {imports : List (String × String)} {e : Expr}
    (h : argsFixedE imports e = true) : processDynamicImport imports e = e := by
  match e with
  | .call (.ident n) args =>
    by_cases hn : n = "import"
    · subst hn
      match args with
      | .nil => rfl
      | .cons a rest =>
        have hfix : firstArgFixedB imports a = true := by
          simp only [argsFixedE, argsFixedL, Bool.and_eq_true] at h
          simpa using h.2
        show Expr.call (.ident "import") (.cons (processFirstArg imports a) rest)
            = Expr.call (.ident "import") (.cons a rest)
        rw [processFirstArg_of_fixed hfix]
    · simp only [processDynamicImport]
      rw [if_neg hn]
  | .strLit s => rfl
  | .tmplLit s => rfl
  | .ident n => rfl
  | .importKw => rfl
  | .bin op l r => rfl
  | .awaitE e1 => rfl
  | .otherE => rfl
  | .call (.strLit s) args => rfl
  | .call (.tmplLit s) args => rfl
  | .call .importKw args => rfl
  | .call (.bin op l r) args => rfl
  | .call (.call c2 a2) args => rfl
  | .call (.awaitE e2) args => rfl
  | .call .otherE args => rfl

mutual

theorem rewriteCalls_of_fixed (imports : List (String × String)) (e : Expr)
    (h : argsFixedE imports e = true) : rewriteCallsInExpr imports e = e := by
  match e with
  | .strLit s => rfl
  | .tmplLit s => rfl
  | .ident n => rfl
  | .importKw => rfl
  | .bin op l r =>
    simp only [argsFixedE, Bool.and_eq_true] at h
    simp only [rewriteCallsInExpr]
    rw [rewriteCalls_of_fixed imports l h.1, rewriteCalls_of_fixed imports r h.2]
  | .call c args =>
    have hparts : argsFixedE imports c = true ∧ argsFixedL imports args = true := by
      simp only [argsFixedE, Bool.and_eq_true] at h
      exact ⟨h.1.1, h.1.2⟩
    simp only [rewriteCallsInExpr]
    rw [rewriteCalls_of_fixed imports c hparts.1,
      rewriteCallsList_of_fixed imports args hparts.2]
    exact processDynamicImport_of_fixed h
  | .awaitE e1 =>
    simp only [argsFixedE] at h
    simp only [rewriteCallsInExpr]
    rw [rewriteCalls_of_fixed imports e1 h]
  | .otherE => rfl

theorem rewriteCallsList_of_fixed (imports : List (String × String)) (es : ExprList)
    (h : argsFixedL imports es = true) : rewriteCallsInList imports es = es := by
  match es with
  | .nil => rfl
  | .cons e es1 =>
    simp only [argsFixedL, Bool.and_eq_true] at h
    simp only [rewriteCallsInList]
    rw [rewriteCalls_of_fixed imports e h.1, rewriteCallsList_of_fixed imports es1 h.2]

end

mutual

theorem rewriteAwaits_of_fixed (imports : List (String × String)) (e : Expr)
    (h : argsFixedE imports e = true) : rewriteAwaitsInExpr imports e = e := by
  match e with
  | .strLit s => rfl
  | .tmplLit s => rfl
  | .ident n => rfl
  | .importKw => rfl
  | .bin op l r =>
    simp only [argsFixedE, Bool.and_eq_true] at h
    simp only [rewriteAwaitsInExpr]
    rw [rewriteAwaits_of_fixed imports l h.1, rewriteAwaits_of_fixed imports r h.2]
  | .call c args =>
    have hparts : argsFixedE imports c = true ∧ argsFixedL imports args = true := by
      simp only [argsFixedE, Bool.and_eq_true] at h
      exact ⟨h.1.1, h.1.2⟩
    simp only [rewriteAwaitsInExpr]
    rw [rewriteAwaits_of_fixed imports c hparts.1,
      rewriteAwaitsList_of_fixed imports args hparts.2]
  | .awaitE e1 =>
    have h1 : argsFixedE imports e1 = true := by simpa [argsFixedE] using h
    simp only [rewriteAwaitsInExpr]
    rw [rewriteAwaits_of_fixed imports e1 h1]
    simp only [processAwaitExpression]
    rw [processDynamicImport_of_fixed h1]
  | .otherE => rfl

theorem rewriteAwaitsList_of_fixed (imports : List (String × String)) (es : ExprList)
    (h : argsFixedL imports es = true) : rewriteAwaitsInList imports es = es := by
  match es with
  | .nil => rfl
  | .cons e es1 =>
    simp only [argsFixedL, Bool.and_eq_true] at h
    simp only [rewriteAwaitsInList]
    rw [rewriteAwaits_of_fixed imports e h.1, rewriteAwaitsList_of_fixed imports es1 h.2]

end

theorem argsFixedE_call_intro (imports : List (String × String)) {c : Expr} {args : ExprList}
    (hc : argsFixedE imports c = true) (ha : argsFixedL imports args = true)
    (hg : importGuardB imports c args = true) :
    argsFixedE imports (.call c args) = true := by
  simp only [argsFixedE, Bool.and_eq_true]
  exact ⟨⟨hc, ha⟩, hg⟩

theorem pdi_call_shape (imports : List (String × String)) (c : Expr) (args : ExprList) :
    ∃ c2 args2, processDynamicImport imports (.call c args) = .call c2 args2 := by
  match c with
  | .ident n =>
    by_cases hn : n = "import"
    · subst hn
      match args with
      | .nil => exact ⟨_, _, rfl⟩
      | .cons a rest => exact ⟨_, _, rfl⟩
    · refine ⟨.ident n, args, ?_⟩
      simp only [processDynamicImport]
      rw [if_neg hn]
  | .strLit s => exact ⟨_, _, rfl⟩
  | .tmplLit s => exact ⟨_, _, rfl⟩
  | .importKw => exact ⟨_, _, rfl⟩
  | .bin op l r => exact ⟨_, _, rfl⟩
  | .call c2 a2 => exact ⟨_, _, rfl⟩
  | .awaitE e2 => exact ⟨_, _, rfl⟩
  | .otherE => exact ⟨_, _, rfl⟩

theorem operand_after_process (imports : List (String × String))
    (hT : tableGoodB imports = true) (l : Expr) (hc : litsCleanE l = true)
    (IHl : argsFixedE imports (processCallsAwaits imports l) = true) :
    argsFixedE imports (rewriteAwaitsInExpr imports
        (processBinOperand imports (rewriteCallsInExpr imports l))) = true ∧
    operandFixedB imports (rewriteAwaitsInExpr imports
        (processBinOperand imports (rewriteCallsInExpr imports l))) = true := by
  match l with
  | .strLit s =>
    have hs : stripQuotes s = s := by simpa [litsCleanE] using hc
    refine ⟨rfl, ?_⟩
    show operandFixedB imports (.strLit (resolveSpecifier imports s)) = true
    simp [operandFixedB, resolve_idem hT hs]
  | .tmplLit s => exact ⟨IHl, rfl⟩
  | .ident n => exact ⟨IHl, rfl⟩
  | .importKw => exact ⟨IHl, rfl⟩
  | .otherE => exact ⟨IHl, rfl⟩
  | .bin op2 l2 r2 => exact ⟨IHl, rfl⟩
  | .awaitE e2 => exact ⟨IHl, rfl⟩
  | .call c2 a2 =>
    obtain ⟨c3, a3, hshape⟩ := pdi_call_shape imports
      (rewriteCallsInExpr imports c2) (rewriteCallsInList imports a2)
    have hrc : rewriteCallsInExpr imports (.call c2 a2) = .call c3 a3 := by
      simp only [rewriteCallsInExpr]
      exact hshape
    constructor
    · rw [hrc]
      show argsFixedE imports (rewriteAwaitsInExpr imports (.call c3 a3)) = true
      rw [← hrc]
      exact IHl
    · rw [hrc]
      rfl

theorem head_after_process (imports : List (String × String))
    (hT : tableGoodB imports = true) (a : Expr) (hc : litsCleanE a = true)
    (IHa : argsFixedE imports (processCallsAwaits imports a) = true) :
    argsFixedE imports (rewriteAwaitsInExpr imports
        (processFirstArg imports (rewriteCallsInExpr imports a))) = true ∧
    firstArgFixedB imports (rewriteAwaitsInExpr imports
        (processFirstArg imports (rewriteCallsInExpr imports a))) = true := by
  match a with
  | .strLit s =>
    have hs : stripQuotes s = s := by simpa [litsCleanE] using hc
    refine ⟨rfl, ?_⟩
    show firstArgFixedB imports (.strLit (resolveSpecifier imports s)) = true
    simp [firstArgFixedB, resolve_idem hT hs]
  | .tmplLit s =>
    have hs : stripQuotes s = s := by simpa [litsCleanE] using hc
    refine ⟨rfl, ?_⟩
    show firstArgFixedB imports (.tmplLit (resolveSpecifier imports s)) = true
    simp [firstArgFixedB, resolve_idem hT hs]
  | .ident n => exact ⟨IHa, rfl⟩
  | .importKw => exact ⟨IHa, rfl⟩
  | .otherE => exact ⟨IHa, rfl⟩
  | .awaitE e2 => exact ⟨IHa, rfl⟩
  | .call c2 a2 =>
    obtain ⟨c3, a3, hshape⟩ := pdi_call_shape imports
      (rewriteCallsInExpr imports c2) (rewriteCallsInList imports a2)
    have hrc : rewriteCallsInExpr imports (.call c2 a2) = .call c3 a3 := by
      simp only [rewriteCallsInExpr]
      exact hshape
    constructor
    · rw [hrc]
      show argsFixedE imports (rewriteAwaitsInExpr imports (.call c3 a3)) = true
      rw [← hrc]
      exact IHa
    · rw [hrc]
      rfl
  | .bin op l r =>
    have hcl : litsCleanE l = true ∧ litsCleanE r = true := by
      simpa [litsCleanE, Bool.and_eq_true] using hc
    have hIH : argsFixedE imports (processCallsAwaits imports l) = true ∧
        argsFixedE imports (processCallsAwaits imports r) = true := by
      have IHa' : argsFixedE imports (.bin op (processCallsAwaits imports l)
          (processCallsAwaits imports r)) = true := IHa
      simpa [argsFixedE, Bool.and_eq_true] using IHa'
    by_cases hop : op = Op.plus
    · subst hop
      have hL := operand_after_process imports hT l hcl.1 hIH.1
      have hR := operand_after_process imports hT r hcl.2 hIH.2
      constructor
      · show argsFixedE imports (.bin Op.plus
            (rewriteAwaitsInExpr imports (processBinOperand imports
              (rewriteCallsInExpr imports l)))
            (rewriteAwaitsInExpr imports (processBinOperand imports
              (rewriteCallsInExpr imports r)))) = true
        simp [argsFixedE, hL.1, hR.1]
      · show firstArgFixedB imports (.bin Op.plus
            (rewriteAwaitsInExpr imports (processBinOperand imports
              (rewriteCallsInExpr imports l)))
            (rewriteAwaitsInExpr imports (processBinOperand imports
              (rewriteCallsInExpr imports r)))) = true
        simp [firstArgFixedB, hL.2, hR.2]
    · have hpf : processFirstArg imports (rewriteCallsInExpr imports (.bin op l r))
          = .bin op (rewriteCallsInExpr imports l) (rewriteCallsInExpr imports r) := by
        show processBinaryExpressionArg imports op
            (rewriteCallsInExpr imports l) (rewriteCallsInExpr imports r) = _
        simp only [processBinaryExpressionArg]
        rw [if_neg hop]
      constructor
      · rw [hpf]
        show argsFixedE imports (.bin op (processCallsAwaits imports l)
            (processCallsAwaits imports r)) = true
        simp [argsFixedE, hIH.1, hIH.2]
      · rw [hpf]
        show firstArgFixedB imports (.bin op (processCallsAwaits imports l)
            (processCallsAwaits imports r)) = true
        simp only [firstArgFixedB]
        rw [if_neg hop]

mutual

theorem composite_fixed (imports : List (String × String)) (hT : tableGoodB imports = true)
    (e : Expr) (hc : litsCleanE e = true) :
    argsFixedE imports (processCallsAwaits imports e) = true := by
  match e with
  | .strLit s => rfl
  | .tmplLit s => rfl
  | .ident n => rfl
  | .importKw => rfl
  | .otherE => rfl
  | .bin op l r =>
    have hcl : litsCleanE l = true ∧ litsCleanE r = true := by
      simpa [litsCleanE, Bool.and_eq_true] using hc
    show argsFixedE imports (.bin op (processCallsAwaits imports l)
        (processCallsAwaits imports r)) = true
    simp [argsFixedE, composite_fixed imports hT l hcl.1, composite_fixed imports hT r hcl.2]
  | .awaitE e1 =>
    have hc1 : litsCleanE e1 = true := by simpa [litsCleanE] using hc
    have IH := composite_fixed imports hT e1 hc1
    show argsFixedE imports (.awaitE (processDynamicImport imports
        (processCallsAwaits imports e1))) = true
    rw [processDynamicImport_of_fixed IH]
    exact IH
  | .call c args =>
    have hparts : litsCleanE c = true ∧ litsCleanL args = true := by
      simpa [litsCleanE, Bool.and_eq_true] using hc
    match c with
    | .ident n =>
      by_cases hn : n = "import"
      · subst hn
        match args with
        | .nil => rfl
        | .cons a rest =>
          have hcArgs : litsCleanE a = true ∧ litsCleanL rest = true := by
            simpa [litsCleanL, Bool.and_eq_true] using hparts.2
          have IHa := composite_fixed imports hT a hcArgs.1
          have hhead := head_after_process imports hT a hcArgs.1 IHa
          have IHrest := compositeList_fixed imports hT rest hcArgs.2
          show argsFixedE imports (.call (.ident "import")
            (.cons (rewriteAwaitsInExpr imports (processFirstArg imports
                (rewriteCallsInExpr imports a)))
              (processCallsAwaitsL imports rest))) = true
          apply argsFixedE_call_intro
          · rfl
          · show argsFixedL imports (.cons (rewriteAwaitsInExpr imports (processFirstArg imports
                (rewriteCallsInExpr imports a))) (processCallsAwaitsL imports rest)) = true
            simp only [argsFixedL, Bool.and_eq_true]
            exact ⟨hhead.1, IHrest⟩
          · show importGuardB imports (.ident "import")
              (.cons (rewriteAwaitsInExpr imports (processFirstArg imports
                (rewriteCallsInExpr imports a))) (processCallsAwaitsL imports rest)) = true
            simp only [importGuardB]
            simpa using hhead.2
      · have IHargs := compositeList_fixed imports hT args hparts.2
        have hpdi : processDynamicImport imports
            (.call (.ident n) (rewriteCallsInList imports args))
            = .call (.ident n) (rewriteCallsInList imports args) := by
          simp only [processDynamicImport]
          rw [if_neg hn]
        show argsFixedE imports (rewriteAwaitsInExpr imports (processDynamicImport imports
          (.call (.ident n) (rewriteCallsInList imports args)))) = true
        rw [hpdi]
        match args with
        | .nil => rfl
        | .cons a rest =>
          show argsFixedE imports (.call (.ident n)
            (.cons (processCallsAwaits imports a) (processCallsAwaitsL imports rest))) = true
          apply argsFixedE_call_intro
          · rfl
          · exact IHargs
          · show importGuardB imports (.ident n)
              (.cons (processCallsAwaits imports a) (processCallsAwaitsL imports rest)) = true
            simp only [importGuardB]
            rw [if_neg hn]
    | .strLit s2 =>
      have IHargs := compositeList_fixed imports hT args hparts.2
      show argsFixedE imports (.call (.strLit s2) (processCallsAwaitsL imports args)) = true
      exact argsFixedE_call_intro imports rfl IHargs rfl
    | .tmplLit s2 =>
      have IHargs := compositeList_fixed imports hT args hparts.2
      show argsFixedE imports (.call (.tmplLit s2) (processCallsAwaitsL imports args)) = true
      exact argsFixedE_call_intro imports rfl IHargs rfl
    | .importKw =>
      have IHargs := compositeList_fixed imports hT args hparts.2
      show argsFixedE imports (.call .importKw (processCallsAwaitsL imports args)) = true
      exact argsFixedE_call_intro imports rfl IHargs rfl
    | .otherE =>
      have IHargs := compositeList_fixed imports hT args hparts.2
      show argsFixedE imports (.call .otherE (processCallsAwaitsL imports args)) = true
      exact argsFixedE_call_intro imports rfl IHargs rfl
    | .bin op2 l2 r2 =>
      have IHc := composite_fixed imports hT (.bin op2 l2 r2) hparts.1
      have IHargs := compositeList_fixed imports hT args hparts.2
      show argsFixedE imports (.call
        (.bin op2 (processCallsAwaits imports l2) (processCallsAwaits imports r2))
        (processCallsAwaitsL imports args)) = true
      exact argsFixedE_call_intro imports IHc IHargs rfl
    | .awaitE e2 =>
      have IHc := composite_fixed imports hT (.awaitE e2) hparts.1
      have IHargs := compositeList_fixed imports hT args hparts.2
      show argsFixedE imports (.call
        (.awaitE (processDynamicImport imports (processCallsAwaits imports e2)))
        (processCallsAwaitsL imports args)) = true
      exact argsFixedE_call_intro imports IHc IHargs rfl
    | .call c2 a2 =>
      have IHc := composite_fixed imports hT (.call c2 a2) hparts.1
      have IHargs := compositeList_fixed imports hT args hparts.2
      obtain ⟨c3, a3, hshape⟩ := pdi_call_shape imports
        (rewriteCallsInExpr imports c2) (rewriteCallsInList imports a2)
      have hrc : rewriteCallsInExpr imports (.call c2 a2) = .call c3 a3 := by
        simp only [rewriteCallsInExpr]
        exact hshape
      show argsFixedE imports (rewriteAwaitsInExpr imports (processDynamicImport imports
        (.call (rewriteCallsInExpr imports (.call c2 a2))
          (rewriteCallsInList imports args)))) = true
      rw [hrc]
      show argsFixedE imports (.call
        (rewriteAwaitsInExpr imports (.call c3 a3))
        (processCallsAwaitsL imports args)) = true
      apply argsFixedE_call_intro
      · rw [← hrc]
        exact IHc
      · exact IHargs
      · rfl

theorem compositeList_fixed (imports : List (String × String)) (hT : tableGoodB imports = true)
    (es : ExprList) (hc : litsCleanL es = true) :
    argsFixedL imports (processCallsAwaitsL imports es) = true := by
  match es with
  | .nil => rfl
  | .cons e es1 =>
    have hparts : litsCleanE e = true ∧ litsCleanL es1 = true := by
      simpa [litsCleanL, Bool.and_eq_true] using hc
    show argsFixedL imports (.cons (processCallsAwaits imports e)
        (processCallsAwaitsL imports es1)) = true
    simp only [argsFixedL, Bool.and_eq_true]
    exact ⟨composite_fixed imports hT e hparts.1, compositeList_fixed imports hT es1 hparts.2⟩

end

theorem processCallsAwaits_of_fixed (imports : List (String × String)) {e : Expr}
    (h : argsFixedE imports e = true) : processCallsAwaits imports e = e := by
  rw [processCallsAwaits, rewriteCalls_of_fixed imports e h, rewriteAwaits_of_fixed imports e h]

theorem processJsxComment_of_fixed {imports : List (String × String)} {c : String}
    (h : jsxSpecFixedB imports c = true) : processJsxComment imports c = c := by
  match hf : findJsxSpec c.data with
  | none =>
    simp only [processJsxComment, hf]
  | some spec =>
    have hres : resolveSpecifier imports (String.mk spec) = String.mk spec := by
      simp only [jsxSpecFixedB, hf] at h
      simpa using h
    simp only [processJsxComment, hf]
    rw [if_pos hres]

theorem listMapFixed {α : Type} {f : α → α} :
    ∀ {l : List α}, (∀ a ∈ l, f a = a) → l.map f = l := by
  intro l
  induction l with
  | nil => intro _; rfl
  | cons a l ih =>
    intro h
    rw [List.map_cons, h a (List.mem_cons_self _ _), ih (fun b hb => h b (List.mem_cons_of_mem _ hb))]

theorem stmt_run_fixed (imports : List (String × String)) (hT : tableGoodB imports = true)
    (st : Stmt) (hc : litsCleanS st = true) :
    processStmtAll imports (processStmtAll imports st) = processStmtAll imports st := by
  match st with
  | .importDecl e =>
    match e with
    | .strLit s =>
      have hs : stripQuotes s = s := by simpa [litsCleanS, litsCleanE] using hc
      show Stmt.importDecl (.strLit (resolveSpecifier imports (resolveSpecifier imports s)))
          = Stmt.importDecl (.strLit (resolveSpecifier imports s))
      rw [resolve_idem hT hs]
    | .tmplLit s => rfl
    | .ident n => rfl
    | .importKw => rfl
    | .otherE => rfl
    | .bin op l r =>
      have hcl : litsCleanE (.bin op l r) = true := by simpa [litsCleanS] using hc
      have hfix := composite_fixed imports hT (.bin op l r) hcl
      show Stmt.importDecl (processCallsAwaits imports
          (processCallsAwaits imports (.bin op l r)))
          = Stmt.importDecl (processCallsAwaits imports (.bin op l r))
      rw [processCallsAwaits_of_fixed imports hfix]
    | .awaitE e2 =>
      have hcl : litsCleanE (.awaitE e2) = true := by simpa [litsCleanS] using hc
      have hfix := composite_fixed imports hT (.awaitE e2) hcl
      show Stmt.importDecl (processCallsAwaits imports
          (processCallsAwaits imports (.awaitE e2)))
          = Stmt.importDecl (processCallsAwaits imports (.awaitE e2))
      rw [processCallsAwaits_of_fixed imports hfix]
    | .call c2 a2 =>
      have hcl : litsCleanE (.call c2 a2) = true := by simpa [litsCleanS] using hc
      have hfix := composite_fixed imports hT (.call c2 a2) hcl
      obtain ⟨c3, a3, hshape⟩ := pdi_call_shape imports
        (rewriteCallsInExpr imports c2) (rewriteCallsInList imports a2)
      have hrc : rewriteCallsInExpr imports (.call c2 a2) = .call c3 a3 := by
        simp only [rewriteCallsInExpr]
        exact hshape
      have hPCA : processCallsAwaits imports (.call c2 a2)
          = .call (rewriteAwaitsInExpr imports c3) (rewriteAwaitsInList imports a3) := by
        rw [processCallsAwaits, hrc]
        simp only [rewriteAwaitsInExpr]
      have hfix2 := hfix
      rw [hPCA] at hfix2
      show processStmtAll imports (.importDecl (processCallsAwaits imports (.call c2 a2)))
          = Stmt.importDecl (processCallsAwaits imports (.call c2 a2))
      rw [hPCA]
      show Stmt.importDecl (processCallsAwaits imports
          (.call (rewriteAwaitsInExpr imports c3) (rewriteAwaitsInList imports a3)))
          = Stmt.importDecl (.call (rewriteAwaitsInExpr imports c3)
              (rewriteAwaitsInList imports a3))
      rw [processCallsAwaits_of_fixed imports hfix2]
  | .exportDecl none => rfl
  | .exportDecl (some e) =>
    match e with
    | .strLit s =>
      have hs : stripQuotes s = s := by simpa [litsCleanS, litsCleanE] using hc
      show Stmt.exportDecl (some (.strLit (resolveSpecifier imports
          (resolveSpecifier imports s))))
          = Stmt.exportDecl (some (.strLit (resolveSpecifier imports s)))
      rw [resolve_idem hT hs]
    | .tmplLit s => rfl
    | .ident n => rfl
    | .importKw => rfl
    | .otherE => rfl
    | .bin op l r =>
      have hcl : litsCleanE (.bin op l r) = true := by simpa [litsCleanS] using hc
      have hfix := composite_fixed imports hT (.bin op l r) hcl
      show Stmt.exportDecl (some (processCallsAwaits imports
          (processCallsAwaits imports (.bin op l r))))
          = Stmt.exportDecl (some (processCallsAwaits imports (.bin op l r)))
      rw [processCallsAwaits_of_fixed imports hfix]
    | .awaitE e2 =>
      have hcl : litsCleanE (.awaitE e2) = true := by simpa [litsCleanS] using hc
      have hfix := composite_fixed imports hT (.awaitE e2) hcl
      show Stmt.exportDecl (some (processCallsAwaits imports
          (processCallsAwaits imports (.awaitE e2))))
          = Stmt.exportDecl (some (processCallsAwaits imports (.awaitE e2)))
      rw [processCallsAwaits_of_fixed imports hfix]
    | .call c2 a2 =>
      have hcl : litsCleanE (.call c2 a2) = true := by simpa [litsCleanS] using hc
      have hfix := composite_fixed imports hT (.call c2 a2) hcl
      obtain ⟨c3, a3, hshape⟩ := pdi_call_shape imports
        (rewriteCallsInExpr imports c2) (rewriteCallsInList imports a2)
      have hrc : rewriteCallsInExpr imports (.call c2 a2) = .call c3 a3 := by
        simp only [rewriteCallsInExpr]
        exact hshape
      have hPCA : processCallsAwaits imports (.call c2 a2)
          = .call (rewriteAwaitsInExpr imports c3) (rewriteAwaitsInList imports a3) := by
        rw [processCallsAwaits, hrc]
        simp only [rewriteAwaitsInExpr]
      have hfix2 := hfix
      rw [hPCA] at hfix2
      show processStmtAll imports (.exportDecl (some (processCallsAwaits imports
          (.call c2 a2))))
          = Stmt.exportDecl (some (processCallsAwaits imports (.call c2 a2)))
      rw [hPCA]
      show Stmt.exportDecl (some (processCallsAwaits imports
          (.call (rewriteAwaitsInExpr imports c3) (rewriteAwaitsInList imports a3))))
          = Stmt.exportDecl (some (.call (rewriteAwaitsInExpr imports c3)
              (rewriteAwaitsInList imports a3)))
      rw [processCallsAwaits_of_fixed imports hfix2]
  | .stmtOther es =>
    have hes : ∀ x ∈ es, litsCleanE x = true := by
      rw [litsCleanS, List.all_eq_true] at hc
      exact hc
    have hstep : (es.map (rewriteCallsInExpr imports)).map (rewriteAwaitsInExpr imports)
        = es.map (processCallsAwaits imports) := by
      rw [List.map_map]
      rfl
    show Stmt.stmtOther ((((es.map (rewriteCallsInExpr imports)).map
        (rewriteAwaitsInExpr imports)).map (rewriteCallsInExpr imports)).map
        (rewriteAwaitsInExpr imports))
        = Stmt.stmtOther ((es.map (rewriteCallsInExpr imports)).map
            (rewriteAwaitsInExpr imports))
    rw [hstep]
    have hfixAll : ∀ x ∈ es.map (processCallsAwaits imports), argsFixedE imports x = true := by
      intro x hx
      obtain ⟨e0, he0, hmap⟩ := List.mem_map.mp hx
      rw [← hmap]
      exact composite_fixed imports hT e0 (hes e0 he0)
    have h1 : (es.map (processCallsAwaits imports)).map (rewriteCallsInExpr imports)
        = es.map (processCallsAwaits imports) :=
      listMapFixed (fun x hx => rewriteCalls_of_fixed imports x (hfixAll x hx))
    have h2 : (es.map (processCallsAwaits imports)).map (rewriteAwaitsInExpr imports)
        = es.map (processCallsAwaits imports) :=
      listMapFixed (fun x hx => rewriteAwaits_of_fixed imports x (hfixAll x hx))
    rw [h1, h2]

theorem rewriteImports_eq (imports : List (String × String)) (sf : SourceFile) :
    rewriteImports imports sf
      = ⟨sf.leadingComments.map (processJsxComment imports),
         sf.stmts.map (processStmtAll imports)⟩ := by
  simp only [rewriteImports, List.map_map]
  rfl

theorem rewriteImports_idem_of (imports : List (String × String)) (sf : SourceFile)
    (hT : tableGoodB imports = true) (hLits : litsCleanF sf = true)
    (hJsx : jsxFixedF imports sf = true) :
    rewriteImports imports (rewriteImports imports sf) = rewriteImports imports sf := by
  have hcfix : ∀ c ∈ sf.leadingComments, processJsxComment imports c = c := by
    intro c hcmem
    apply processJsxComment_of_fixed
    rw [jsxFixedF, List.all_eq_true] at hJsx
    exact hJsx c hcmem
  have hcomments : sf.leadingComments.map (processJsxComment imports) = sf.leadingComments :=
    listMapFixed hcfix
  have hstmts : ∀ st ∈ sf.stmts, litsCleanS st = true := by
    rw [litsCleanF, List.all_eq_true] at hLits
    exact hLits
  rw [rewriteImports_eq imports sf, rewriteImports_eq]
  congr 1
  · rw [hcomments]
    exact hcomments
  · apply listMapFixed
    intro x hx
    obtain ⟨st0, hst0, hmap⟩ := List.mem_map.mp hx
    rw [← hmap]
    exact stmt_run_fixed imports hT st0 (hstmts st0 hst0)

theorem splitSlashL_noSlash {l : List Char} (h : '/' ∉ l) : splitSlashL l = [l] := by
  induction l with
  | nil => rfl
  | cons c rest ih =>
    have hc : (c == '/') = false := by
      rw [beq_eq_false_iff_ne]
      intro hcc
      exact h (by rw [hcc]; exact List.mem_cons_self _ _)
    rw [splitSlashL, if_neg (by simp [hc]), ih (fun hm => h (List.mem_cons_of_mem _ hm))]

theorem splitSlashL_append {l1 : List Char} (h : '/' ∉ l1) (l2 : List Char) :
    splitSlashL (l1 ++ '/' :: l2) = l1 :: splitSlashL l2 := by
  induction l1 with
  | nil =>
    show splitSlashL ('/' :: l2) = [] :: splitSlashL l2
    rw [splitSlashL, if_pos (by simp)]
  | cons c rest ih =>
    have hc : (c == '/') = false := by
      rw [beq_eq_false_iff_ne]
      intro hcc
      exact h (by rw [hcc]; exact List.mem_cons_self _ _)
    rw [List.cons_append, splitSlashL, if_neg (by simp [hc]),
      ih (fun hm => h (List.mem_cons_of_mem _ hm))]

theorem normParts_noDotDot (ab : Bool) :
    ∀ (ps : List (List Char)) (acc : List (List Char)),
      (∀ q ∈ ps, q ≠ ['.', '.']) →
      normParts ab acc ps
        = acc.reverse ++ ps.filter (fun q => !(q.isEmpty || q == ['.'])) := by
  intro ps
  induction ps with
  | nil =>
    intro acc _
    simp [normParts]
  | cons p rest ih =>
    intro acc h
    have hrest : ∀ q ∈ rest, q ≠ ['.', '.'] := fun q hq => h q (List.mem_cons_of_mem _ hq)
    by_cases hskip : (p.isEmpty || p == ['.']) = true
    · rw [normParts, if_pos hskip, ih acc hrest]
      have hfp : (!(p.isEmpty || p == ['.'])) = false := by rw [hskip]; rfl
      rw [List.filter_cons, hfp, if_neg (by simp)]
    · have hdd : ¬(p == ['.', '.']) = true := by
        rw [beq_iff_eq]
        exact h p (List.mem_cons_self _ _)
      have hb : (p.isEmpty || p == ['.']) = false := by
        rw [← Bool.not_eq_true]
        exact hskip
      have hfp : (!(p.isEmpty || p == ['.'])) = true := by rw [hb]; rfl
      rw [normParts, if_neg hskip, if_neg hdd, ih (p :: acc) hrest]
      rw [List.filter_cons, hfp, if_pos rfl]
      simp [List.append_assoc]

theorem joinSlash_cons_startsWith (p : List Char) (rest : List (List Char)) :
    listStartsWith (joinSlash (p :: rest)) p = true := by
  match rest with
  | [] => exact listStartsWith_self p
  | q :: rest2 => exact listStartsWith_refl_append p _

theorem joinSlash_cons_ne_nil {p : List Char} (h : p ≠ []) (rest : List (List Char)) :
    joinSlash (p :: rest) ≠ [] := by
  match rest with
  | [] => exact h
  | q :: rest2 =>
    show p ++ '/' :: joinSlash (q :: rest2) ≠ []
    simp [h]

theorem listStartsWith_cons {l p : List Char} (c : Char)
    (h : listStartsWith l p = true) : listStartsWith (c :: l) (c :: p) = true := by
  rw [listStartsWith_iff] at h ⊢
  rw [List.length_cons, List.take_succ_cons, h]

theorem posixJoin_three (seg p : String) (hseg : ¬seg = "") (hp : ¬p = "") :
    posixJoin ["/", seg, p] = posixNormalize ("/" ++ "/" ++ seg ++ "/" ++ p) := by
  have h0 : ¬("/" : String) = "" := by decide
  simp only [posixJoin, joinParts, List.foldl]
  rw [if_neg h0, if_neg hseg, if_neg hp]

theorem posixJoin_two (seg : String) (hseg : ¬seg = "") :
    posixJoin ["/", seg, ""] = posixNormalize ("/" ++ "/" ++ seg) := by
  have h0 : ¬("/" : String) = "" := by decide
  simp only [posixJoin, joinParts, List.foldl]
  rw [if_neg h0, if_neg hseg]
  simp

theorem isEmpty_false_of_ne_nil {l : List Char} (h : l ≠ []) : l.isEmpty = false := by
  cases l with
  | nil => exact absurd rfl h
  | cons c t => rfl

theorem posixFinish_abs (trail : Bool) (core : List Char) (hne : core ≠ []) :
    posixFinish true trail core = '/' :: core ∨
    posixFinish true trail core = '/' :: (core ++ ['/']) := by
  have hie : core.isEmpty = false := isEmpty_false_of_ne_nil hne
  simp only [posixFinish, Bool.not_true, Bool.and_false, Bool.false_eq_true, if_false, hie,
    Bool.not_false, Bool.true_and, if_true]
  cases trail with
  | false => left; rfl
  | true => right; rfl

theorem posixNormalizeL_cons_slash (t : List Char) :
    posixNormalizeL ('/' :: t)
      = posixFinish true ((('/' :: t).getLast?) == some '/') (posixCore true ('/' :: t)) := by
  simp only [posixNormalizeL]
  rw [show (('/' : Char) == '/') = true from rfl]

theorem filter_keep_head (segd : List Char) (rest : List (List Char))
    (h1 : segd ≠ []) (h3 : segd ≠ ['.']) :
    ([] :: [] :: segd :: rest).filter (fun q => !(q.isEmpty || q == ['.']))
      = segd :: rest.filter (fun q => !(q.isEmpty || q == ['.'])) := by
  have hie : segd.isEmpty = false := isEmpty_false_of_ne_nil h1
  have hb3 : (segd == ['.']) = false := by
    rw [beq_eq_false_iff_ne]
    exact h3
  rw [List.filter_cons, List.filter_cons, List.filter_cons]
  rw [show (!(List.isEmpty ([] : List Char) || ([] : List Char) == ['.'])) = false from rfl]
  rw [show (!(segd.isEmpty || segd == ['.'])) = true from by rw [hie, hb3]; rfl]
  simp

theorem posixCore_abs_split (segd : List Char) (rest : List (List Char))
    (h1 : segd ≠ []) (h3 : segd ≠ ['.']) (h4 : segd ≠ ['.', '.'])
    (hrest : ∀ q ∈ rest, q ≠ ['.', '.'])
    {l : List Char} (hsplit : splitSlashL l = [] :: [] :: segd :: rest) :
    posixCore true l = joinSlash (segd :: rest.filter (fun q => !(q.isEmpty || q == ['.']))) := by
  rw [posixCore, hsplit, Bool.not_true,
    normParts_noDotDot false ([] :: [] :: segd :: rest) [] ?hall]
  case hall =>
    intro q hq
    simp only [List.mem_cons] at hq
    rcases hq with h | h | h | hq
    · subst h; intro hc; cases hc
    · subst h; intro hc; cases hc
    · subst h; exact h4
    · exact hrest q hq
  rw [List.reverse_nil, List.nil_append, filter_keep_head segd rest h1 h3]

theorem posixNormalize_data (s : String) : (posixNormalize s).data = posixNormalizeL s.data :=
  rfl

theorem finish_prefix (trailB : Bool) (core segd : List Char) (hne : core ≠ [])
    (hpre : listStartsWith core segd = true) :
    listStartsWith (posixFinish true trailB core) ('/' :: segd) = true := by
  obtain hfin | hfin := posixFinish_abs trailB core hne
  · rw [hfin]
    exact listStartsWith_cons '/' hpre
  · rw [hfin]
    exact listStartsWith_cons '/' (listStartsWith_extend ['/'] hpre)

theorem posixJoin_startsWith (seg p : String)
    (hseg1 : seg.data ≠ []) (hseg2 : '/' ∉ seg.data)
    (hseg3 : seg.data ≠ ['.']) (hseg4 : seg.data ≠ ['.', '.'])
    (hp : noDotDot p = true) :
    jsStartsWith (posixJoin ["/", seg, p]) ("/" ++ seg) = true := by
  have hslash : ("/" : String).data = ['/'] := rfl
  have hsegne : ¬seg = "" := by
    intro h
    rw [h] at hseg1
    exact hseg1 rfl
  have hpredata : ("/" ++ seg).data = '/' :: seg.data := by
    rw [data_append, hslash]
    rfl
  have hrest : ∀ q ∈ splitSlashL p.data, q ≠ ['.', '.'] := by
    rw [noDotDot, List.all_eq_true] at hp
    intro q hq hqq
    have hb := hp q hq
    rw [hqq] at hb
    simp at hb
  by_cases hpe : p = ""
  · subst hpe
    rw [posixJoin_two seg hsegne]
    have hdata : ("/" ++ "/" ++ seg).data = '/' :: '/' :: seg.data := by
      simp [data_append, hslash]
    have hsplit : splitSlashL ('/' :: '/' :: seg.data) = [] :: [] :: seg.data :: [] := by
      rw [splitSlashL, if_pos (by simp), splitSlashL, if_pos (by simp),
        splitSlashL_noSlash hseg2]
    have hcore := posixCore_abs_split seg.data [] hseg1 hseg3 hseg4
      (by intro q hq; cases hq) hsplit
    rw [List.filter_nil] at hcore
    have hne : posixCore true ('/' :: '/' :: seg.data) ≠ [] := by
      rw [hcore]
      exact joinSlash_cons_ne_nil hseg1 _
    have hpre : listStartsWith (posixCore true ('/' :: '/' :: seg.data)) seg.data = true := by
      rw [hcore]
      exact joinSlash_cons_startsWith seg.data _
    rw [jsStartsWith_eq, posixNormalize_data, hdata, hpredata, posixNormalizeL_cons_slash]
    exact finish_prefix _ _ _ hne hpre
  · rw [posixJoin_three seg p hsegne hpe]
    have hdata : ("/" ++ "/" ++ seg ++ "/" ++ p).data
        = '/' :: '/' :: (seg.data ++ '/' :: p.data) := by
      simp [data_append, hslash]
    have hsplit : splitSlashL ('/' :: '/' :: (seg.data ++ '/' :: p.data))
        = [] :: [] :: seg.data :: splitSlashL p.data := by
      rw [splitSlashL, if_pos (by simp), splitSlashL, if_pos (by simp),
        splitSlashL_append hseg2]
    have hcore := posixCore_abs_split seg.data (splitSlashL p.data) hseg1 hseg3 hseg4
      hrest hsplit
    have hne : posixCore true ('/' :: '/' :: (seg.data ++ '/' :: p.data)) ≠ [] := by
      rw [hcore]
      exact joinSlash_cons_ne_nil hseg1 _
    have hpre : listStartsWith
        (posixCore true ('/' :: '/' :: (seg.data ++ '/' :: p.data))) seg.data = true := by
      rw [hcore]
      exact joinSlash_cons_startsWith seg.data _
    rw [jsStartsWith_eq, posixNormalize_data, hdata, hpredata, posixNormalizeL_cons_slash]
    exact finish_prefix _ _ _ hne hpre

theorem rootFallback_outcomes (app ref oid : String) (tree : List String) :
    (∃ m, rootFallback app ref oid tree = .httpError 404 m) ∨
    (∃ p, noDotDot p = true ∧ rootFallback app ref oid tree
        = .redirect (posixJoin ["/", app ++ "@" ++ oidShort oid, p])) := by
  have hent : ∀ g ∈ entrypoints, noDotDot g = true := by decide
  match hf : entrypoints.find? (fun mainFile => tree.contains mainFile) with
  | some g =>
    right
    refine ⟨g, hent g (List.mem_of_find?_eq_some hf), ?_⟩
    simp only [rootFallback, hf]
  | none =>
    left
    refine ⟨"No default export found for " ++ app ++ " at " ++ ref, ?_⟩
    simp only [rootFallback, hf]

theorem rootRoute_outcomes (config : DenoConfig) (app ref oid : String) (tree : List String)
    (hexp : exportsDotDotFree config = true) :
    (∃ m, rootRoute config app ref oid tree = .httpError 404 m) ∨
    (∃ p, noDotDot p = true ∧ rootRoute config app ref oid tree
        = .redirect (posixJoin ["/", app ++ "@" ++ oidShort oid, p])) := by
  match hc : config.exports with
  | none =>
    have heq : rootRoute config app ref oid tree = rootFallback app ref oid tree := by
      simp [rootRoute, hc, exportsTruthy]
    rw [heq]
    exact rootFallback_outcomes app ref oid tree
  | some (.str s) =>
    by_cases hs : s = ""
    · subst hs
      have heq : rootRoute config app ref oid tree = rootFallback app ref oid tree := by
        simp [rootRoute, hc, exportsTruthy]
      rw [heq]
      exact rootFallback_outcomes app ref oid tree
    · have hnd : noDotDot s = true := by
        simp only [exportsDotDotFree, hc] at hexp
        exact hexp
      right
      refine ⟨s, hnd, ?_⟩
      simp [rootRoute, hc, exportsTruthy, hs]
  | some (.map m) =>
    match hlk : lookupEntry m "." with
    | some v =>
      have hnd : noDotDot v = true := by
        simp only [exportsDotDotFree, hc, hlk] at hexp
        exact hexp
      right
      refine ⟨v, hnd, ?_⟩
      simp [rootRoute, hc, exportsTruthy, hlk]
    | none =>
      have heq : rootRoute config app ref oid tree = rootFallback app ref oid tree := by
        simp [rootRoute, hc, exportsTruthy, hlk]
      rw [heq]
      exact rootFallback_outcomes app ref oid tree

theorem strExt {a b : String} (h : a.data = b.data) : a = b :=
  match a, b with
  | ⟨_⟩, ⟨_⟩ => congrArg String.mk h

/-- C1: dynamic-import rewriting is dead code — the callee node of a genuine
`import(...)` call is the `import` keyword token (`SyntaxKind.ImportKeyword`),
never an `Identifier` (`import` is a reserved word, so no parseable call has an
identifier callee with that text), so the `Node.isIdentifier` guard of
`processDynamicImport` always takes the early return and no dynamic-import
argument is ever rewritten, whether reached through the call pass or the await
pass. On the claim's own scenario `import("./x" + "/" + name)`, and on a plain
`await import("./x")`, the file is left unchanged even though the table maps
the literal `./x`, which the spec says is resolved. -/
theorem c1_dynamic_import_never_rewritten :
    (∀ (imports : List (String × String)) (args : ExprList),
      processDynamicImport imports (.call .importKw args) = .call .importKw args) ∧
    rewriteImports [("./x", "https://esm.example/x")]
      ⟨[], [.stmtOther [.call .importKw
        (.cons (.bin .plus (.bin .plus (.strLit "./x") (.strLit "/")) (.ident "name")) .nil)]]⟩
      = ⟨[], [.stmtOther [.call .importKw
        (.cons (.bin .plus (.bin .plus (.strLit "./x") (.strLit "/")) (.ident "name")) .nil)]]⟩ ∧
    rewriteImports [("./x", "https://esm.example/x")]
      ⟨[], [.stmtOther [.awaitE (.call .importKw (.cons (.strLit "./x") .nil))]]⟩
      = ⟨[], [.stmtOther [.awaitE (.call .importKw (.cons (.strLit "./x") .nil))]]⟩ ∧
    resolveSpecifier [("./x", "https://esm.example/x")] "./x" = "https://esm.example/x" := by
  refine ⟨fun imports args => rfl, by decide, by decide, by decide⟩

/-- C2 counterexample: a key mapped to the empty string is an exact key of the
table, yet the truthy test `if (this.imports[cleanSpecifier])` skips it, so
the resolver does not return the mapped value verbatim. -/
theorem c2_empty_value_not_returned :
    lookupEntry [("react", "")] "react" = some "" ∧
    resolveSpecifier [("react", "")] "react" ≠ "" := by decide

/-- C2 (amended): if the specifier is unchanged by quote stripping, is an
exact key of the table, and its mapped value is non-empty (truthy), then
`resolveSpecifier` returns the mapped value verbatim; an empty mapped value
is falsy and falls through instead. -/
theorem c2_exact_match (T : List (String × String)) (s v : String)
    (hclean : stripQuotes s = s) (h : lookupEntry T s = some v) (hv : v ≠ "") :
    resolveSpecifier T s = v :=
  resolveSpecifier_exact hclean h hv

/-- C2 witness: the spec's own react scenario. -/
theorem c2_exact_match_witness :
    stripQuotes "react" = "react" ∧
    lookupEntry [("react", "https://esm.example/react@18")] "react"
      = some "https://esm.example/react@18" ∧
    resolveSpecifier [("react", "https://esm.example/react@18")] "react"
      = "https://esm.example/react@18" :=
  ⟨by decide, by decide,
    c2_exact_match [("react", "https://esm.example/react@18")] "react"
      "https://esm.example/react@18" (by decide) (by decide) (by decide)⟩

/-- C3 counterexample: the claim quantifies over every key of the table, but
with the table `x ↦ A, x/y ↦ B` and the specifier `x/y/z`, the loop's first
matching key `x` wins, so the result is `A/y/z`, not the claim's
`stripTrailingSlash(T[x/y]) + "/" + z = B/z`. -/
theorem c3_later_key_loses :
    lookupEntry [("x", "A"), ("x/y", "B")] "x/y" = some "B" ∧
    resolveSpecifier [("x", "A"), ("x/y", "B")] ("x/y" ++ "/" ++ "z") = "A/y/z" ∧
    ("A/y/z" : String) ≠ stripTrailingSlash "B" ++ "/" ++ "z" := by decide

/-- C3 (amended): for the FIRST entry `(k, v)` in enumeration order whose
`k + "/"` prefixes the specifier `k + "/" + r`, provided the specifier is
unchanged by quote stripping and no entry keyed by the full specifier has a
truthy value, resolution returns `stripTrailingSlash v + "/" + r`. -/
theorem c3_subpath_match (T1 T2 : List (String × String)) (k v r : String)
    (hclean : stripQuotes (k ++ "/" ++ r) = k ++ "/" ++ r)
    (hnoexact : ∀ p ∈ T1 ++ (k, v) :: T2, p.1 = k ++ "/" ++ r → p.2 = "")
    (hfirst : ∀ p ∈ T1, jsStartsWith (k ++ "/" ++ r) (p.1 ++ "/") = false) :
    resolveSpecifier (T1 ++ (k, v) :: T2) (k ++ "/" ++ r)
      = stripTrailingSlash v ++ "/" ++ r := by
  have hslash : ("/" : String).data = ['/'] := rfl
  have hk : jsStartsWith (k ++ "/" ++ r) (k ++ "/") = true := by
    rw [jsStartsWith_eq, data_append]
    exact listStartsWith_refl_append _ _
  rw [resolveSpecifier_subpathFirst hclean hnoexact hfirst hk]
  apply strExt
  have harg : (k ++ "/" ++ r).data = k.data ++ '/' :: r.data := by
    simp [data_append, hslash]
  have hdrop : ((k ++ "/" ++ r).data).drop (strLen k) = '/' :: r.data := by
    rw [harg, show strLen k = k.data.length from rfl]
    exact List.drop_left k.data ('/' :: r.data)
  rw [data_append, show (jsSliceFrom (k ++ "/" ++ r) (strLen k)).data
      = ((k ++ "/" ++ r).data).drop (strLen k) from rfl, hdrop]
  simp [data_append, hslash]

/-- C3 witness: the std subpath scenario, with the trailing slash of the
mapped value collapsed. -/
theorem c3_subpath_match_witness :
    (∀ p ∈ ([("std", "https://deno.land/std/")] : List (String × String)),
      p.1 = "std" ++ "/" ++ "path/mod.ts" → p.2 = "") ∧
    resolveSpecifier [("std", "https://deno.land/std/")] ("std" ++ "/" ++ "path/mod.ts")
      = stripTrailingSlash "https://deno.land/std/" ++ "/" ++ "path/mod.ts" :=
  ⟨by decide,
    c3_subpath_match [] [] "std" "https://deno.land/std/" "path/mod.ts"
      (by decide) (by decide) (by decide)⟩

/-- C4 counterexample: with the empty table nothing matches, yet a specifier
wrapped in quote characters is returned with the quotes stripped, not
unchanged. -/
theorem c4_quoted_not_identity :
    resolveSpecifier [] "\"x\"" ≠ "\"x\"" := by decide

/-- C4 (amended): when no table key matches the quote-stripped specifier
exactly with a truthy value and no key is a `/`-prefix of it, the resolver
returns the quote-stripped specifier — the identity holds exactly for
specifiers that carry no surrounding quote characters. -/
theorem c4_no_match_strips_quotes (T : List (String × String)) (s : String)
    (hexact : ∀ p ∈ T, p.1 = stripQuotes s → p.2 = "")
    (hsub : ∀ p ∈ T, jsStartsWith (stripQuotes s) (p.1 ++ "/") = false) :
    resolveSpecifier T s = stripQuotes s :=
  resolveSpecifier_noMatch hexact hsub

/-- C4 witness: an unmatched quote-free specifier is returned unchanged. -/
theorem c4_no_match_strips_quotes_witness :
    resolveSpecifier [("react", "https://esm.example/react@18")] "./local.ts"
      = stripQuotes "./local.ts" ∧
    stripQuotes "./local.ts" = "./local.ts" :=
  ⟨c4_no_match_strips_quotes [("react", "https://esm.example/react@18")] "./local.ts"
      (by decide) (by decide),
    by decide⟩

/-- C5 counterexample: with the table `a ↦ b/c, b ↦ X` a second rewriting pass
is not a no-op — `import "a"` becomes `import "b/c"` after one pass and
`import "X/c"` after two. -/
theorem c5_not_idempotent_for_all_tables :
    rewriteImports [("a", "b/c"), ("b", "X")]
      (rewriteImports [("a", "b/c"), ("b", "X")] ⟨[], [.importDecl (.strLit "a")]⟩)
      ≠ rewriteImports [("a", "b/c"), ("b", "X")] ⟨[], [.importDecl (.strLit "a")]⟩ := by
  decide

/-- C5 (amended): rewriting is idempotent provided every table value is
quote-free and its slash-stripped form shares no `/`-prefix chain with any
key (`tableGoodB`, which makes every resolver output a fixed point of the
resolver), every string and template literal of the file is quote-free, and
every `@jsxImportSource` specifier in the leading comments already resolves
to itself. -/
theorem c5_rewrite_idempotent (imports : List (String × String)) (sf : SourceFile)
    (hT : tableGoodB imports = true) (hLits : litsCleanF sf = true)
    (hJsx : jsxFixedF imports sf = true) :
    rewriteImports imports (rewriteImports imports sf) = rewriteImports imports sf :=
  rewriteImports_idem_of imports sf hT hLits hJsx

/-- C5 witness: a file with a comment, a static import, and a dynamic import
over the react table. -/
theorem c5_rewrite_idempotent_witness :
    tableGoodB [("react", "https://esm.example/react@18")] = true ∧
    rewriteImports [("react", "https://esm.example/react@18")]
      (rewriteImports [("react", "https://esm.example/react@18")]
        ⟨["/* hello */"], [.importDecl (.strLit "react"),
          .stmtOther [.call (.ident "import") (.cons (.strLit "react") .nil)]]⟩)
      = rewriteImports [("react", "https://esm.example/react@18")]
        ⟨["/* hello */"], [.importDecl (.strLit "react"),
          .stmtOther [.call (.ident "import") (.cons (.strLit "react") .nil)]]⟩ :=
  ⟨by decide,
    c5_rewrite_idempotent [("react", "https://esm.example/react@18")]
      ⟨["/* hello */"], [.importDecl (.strLit "react"),
        .stmtOther [.call (.ident "import") (.cons (.strLit "react") .nil)]]⟩
      (by decide) (by decide) (by decide)⟩

/-- C6: the handler does scan the fixed ordered entrypoint list (mod.* before
main.*, list order not tree order decides) and redirects to the first name
present in the revision's tree, and with none present it throws an
`HTTPException` with status 404 — but the registered `onError` handler answers
every thrown error with status 500, so the request observably fails with
HTTP 500, not the claimed 404. -/
theorem c6_no_default_export_served_as_500 :
    entrypoints = ["mod.js", "mod.ts", "mod.jsx", "mod.tsx",
      "main.js", "main.ts", "main.jsx", "main.tsx"] ∧
    rootRoute emptyConfig "app" "HEAD" "deadbeefdeadbeefdeadbeefdeadbeefdeadbeef"
      ["main.ts", "mod.tsx"] = .redirect "/app@deadbee/mod.tsx" ∧
    rootRoute emptyConfig "app" "HEAD" "deadbeefdeadbeefdeadbeefdeadbeefdeadbeef" []
      = .httpError 404 "No default export found for app at HEAD" ∧
    withOnError (rootRoute emptyConfig "app" "HEAD"
        "deadbeefdeadbeefdeadbeefdeadbeefdeadbeef" [])
      = .httpError 500 "No default export found for app at HEAD" ∧
    (500 : Nat) ≠ 404 := by decide

/-- C8 counterexample: a string `exports` containing a `..` component makes the
`GET /:app` redirect escape the `/{app}@{short}` prefix — `path.join`
normalizes `..`, so the target is `/x`, which does not begin with the
canonical prefix. -/
theorem c8_dotdot_escapes_prefix :
    rootRoute { exports := some (.str "../x") } "app" "HEAD"
      "deadbeefdeadbeefdeadbeefdeadbeefdeadbeef" [] = .redirect "/x" ∧
    jsStartsWith "/x"
      ("/" ++ ("app" ++ "@" ++
        oidShort "deadbeefdeadbeefdeadbeefdeadbeefdeadbeef")) = false := by
  decide

/-- C8 (amended): when the app segment is non-empty and slash-free, the
revision id is slash-free, and the manifest's root export target has no `..`
component, (a) whenever the file route's canonicalization step fires it
redirects exactly to `/{app}@{short}/{filepath}` with `short` the 7-character
revision prefix, and (b) every redirect the `GET /:app` route produces targets
a path beginning with `/{app}@{short}` — the route otherwise throws a 404,
never answering 200 with a body. -/
theorem c8_canonicalization (config : DenoConfig) (app ref oid filepath : String)
    (tree : List String)
    (happ1 : app.data ≠ []) (happ2 : '/' ∉ app.data) (hoid : '/' ∉ oid.data)
    (hexp : exportsDotDotFree config = true) :
    (∀ r, fileRouteCanonical app ref oid filepath = some r →
      r = .redirect ("/" ++ app ++ "@" ++ oidShort oid ++ "/" ++ filepath)) ∧
    ((∃ m, rootRoute config app ref oid tree = .httpError 404 m) ∨
     (∃ t, rootRoute config app ref oid tree = .redirect t ∧
        jsStartsWith t ("/" ++ (app ++ "@" ++ oidShort oid)) = true)) := by
  have hsegdata : (app ++ "@" ++ oidShort oid).data
      = app.data ++ '@' :: oid.data.take 7 := by
    rw [data_append, data_append]
    show app.data ++ ['@'] ++ oid.data.take 7 = _
    simp
  have hat : '@' ∈ app.data ++ '@' :: oid.data.take 7 := by simp
  constructor
  · intro r h
    cases hc : jsStartsWith oid ref with
    | true =>
      rw [fileRouteCanonical, hc] at h
      simp at h
    | false =>
      rw [fileRouteCanonical, hc] at h
      simp at h
      exact h.symm
  · rcases rootRoute_outcomes config app ref oid tree hexp with ⟨m, hm⟩ | ⟨p, hp, hr⟩
    · exact Or.inl ⟨m, hm⟩
    · refine Or.inr ⟨posixJoin ["/", app ++ "@" ++ oidShort oid, p], hr, ?_⟩
      apply posixJoin_startsWith
      · rw [hsegdata]
        intro he
        rw [he] at hat
        exact absurd hat (by decide)
      · rw [hsegdata]
        intro hmem
        rcases List.mem_append.mp hmem with h1 | h2
        · exact happ2 h1
        · rcases List.mem_cons.mp h2 with h3 | h4
          · exact absurd h3 (by decide)
          · exact hoid (List.mem_of_mem_take h4)
      · rw [hsegdata]
        intro he
        rw [he] at hat
        exact absurd hat (by decide)
      · rw [hsegdata]
        intro he
        rw [he] at hat
        exact absurd hat (by decide)
      · exact hp

/-- C8 witness: the spec's deadbeef scenario — the canonicalization redirect
and a root redirect, both targeting the `/{app}@{7-char}` form. -/
theorem c8_canonicalization_witness :
    exportsDotDotFree { exports := some (.str "mod.ts") } = true ∧
    fileRouteCanonical "app" "abc" "deadbeefdeadbeefdeadbeefdeadbeefdeadbeef" "mod.ts"
      = some (.redirect "/app@deadbee/mod.ts") ∧
    (Response.redirect "/app@deadbee/mod.ts")
      = .redirect ("/" ++ "app" ++ "@"
          ++ oidShort "deadbeefdeadbeefdeadbeefdeadbeefdeadbeef" ++ "/" ++ "mod.ts") ∧
    rootRoute { exports := some (.str "mod.ts") } "app" "HEAD"
      "deadbeefdeadbeefdeadbeefdeadbeefdeadbeef" []
      = .redirect "/app@deadbee/mod.ts" ∧
    jsStartsWith "/app@deadbee/mod.ts"
      ("/" ++ ("app" ++ "@"
        ++ oidShort "deadbeefdeadbeefdeadbeefdeadbeefdeadbeef")) = true :=
  ⟨by decide, by decide,
    (c8_canonicalization { exports := some (.str "mod.ts") } "app" "abc"
        "deadbeefdeadbeefdeadbeefdeadbeefdeadbeef" "mod.ts" []
        (by decide) (by decide) (by decide) (by decide)).1
      (.redirect "/app@deadbee/mod.ts") (by decide),
    by decide, by decide⟩

/-- C9: `getConfig` tries `deno.json` then `deno.jsonc`; the first candidate
that both exists at the revision and parses wins; when every candidate is
missing or malformed it returns the empty manifest rather than an error. -/
theorem c9_manifest_fallback (fetchAt : String → Option String)
    (parseJsonc : String → Option DenoConfig) (t1 t2 : String) (d1 d2 : DenoConfig) :
    (fetchAt "deno.json" = some t1 → parseJsonc t1 = some d1 →
      getConfig fetchAt parseJsonc = d1) ∧
    ((fetchAt "deno.json").bind parseJsonc = none →
      fetchAt "deno.jsonc" = some t2 → parseJsonc t2 = some d2 →
      getConfig fetchAt parseJsonc = d2) ∧
    ((fetchAt "deno.json").bind parseJsonc = none →
      (fetchAt "deno.jsonc").bind parseJsonc = none →
      getConfig fetchAt parseJsonc = emptyConfig) := by
  refine ⟨?_, ?_, ?_⟩
  · intro h1 h2
    simp [getConfig, getConfigLoop, h1, h2]
  · intro h0 h1 h2
    simp [getConfig, getConfigLoop, h0, h1, h2]
  · intro h0 h1
    simp [getConfig, getConfigLoop, h0, h1]

/-- C9 witness: with both manifests absent, the empty manifest is returned. -/
theorem c9_manifest_fallback_witness :
    (((fun _ : String => (none : Option String)) "deno.json").bind
      (fun _ : String => (none : Option DenoConfig)) = none) ∧
    getConfig (fun _ => none) (fun _ => none) = emptyConfig :=
  ⟨rfl,
    (c9_manifest_fallback (fun _ => none) (fun _ => none) "" ""
      emptyConfig emptyConfig).2.2 rfl rfl⟩

/-- C10: when no exact key has a truthy value and possibly several keys are
`/`-prefixes of the specifier, resolution deterministically uses the first
qualifying entry in enumeration order — the entry `(k, v)` with every earlier
entry failing the prefix test — regardless of any later qualifying entry. -/
theorem c10_first_prefix_wins (T1 T2 : List (String × String)) (k v s : String)
    (hclean : stripQuotes s = s)
    (hnoexact : ∀ p ∈ T1 ++ (k, v) :: T2, p.1 = s → p.2 = "")
    (hearlier : ∀ p ∈ T1, jsStartsWith s (p.1 ++ "/") = false)
    (hk : jsStartsWith s (k ++ "/") = true)
    (hlater : ∃ q ∈ T2, jsStartsWith s (q.1 ++ "/") = true) :
    resolveSpecifier (T1 ++ (k, v) :: T2) s
      = stripTrailingSlash v ++ jsSliceFrom s (strLen k) :=
  resolveSpecifier_subpathFirst hclean hnoexact hearlier hk

/-- C10 witness: both `a` and `a/b` prefix-match `a/b/c`; the earlier entry
`a ↦ A` wins, giving `A/b/c`. -/
theorem c10_first_prefix_wins_witness :
    (∃ q ∈ ([("a/b", "B")] : List (String × String)),
      jsStartsWith "a/b/c" (q.1 ++ "/") = true) ∧
    resolveSpecifier [("a", "A"), ("a/b", "B")] "a/b/c"
      = stripTrailingSlash "A" ++ jsSliceFrom "a/b/c" (strLen "a") ∧
    stripTrailingSlash "A" ++ jsSliceFrom "a/b/c" (strLen "a") = "A/b/c" :=
  ⟨⟨("a/b", "B"), by decide, by decide⟩,
    c10_first_prefix_wins [] [("a/b", "B")] "a" "A" "a/b/c"
      (by decide) (by decide) (by decide) (by decide)
      ⟨("a/b", "B"), by decide, by decide⟩,
    by decide⟩

end EsmReg
